import Mathlib

/-!
Verification of the uplifter analysis engine (Go sources under `uplifter/`):
shallow embedding of the signature normalizer, cycle detector, statistics
aggregator, comparator and CSV writer/reader, together with theorems that
settle the specification claims.

Modelling conventions:
* Kernel names are `List Char` (`Str`); Go indexes bytes, we index
  characters — identical on the ASCII names the claims are about.
* `float64` durations are modelled as `ℚ` (exact arithmetic); the
  standard deviation, the one genuinely irrational quantity, is stored as
  its radicand (`stdDevSq`, the variance) and exposed as
  `KernelStats.stdDev = Real.sqrt stdDevSq`.
* Go maps are iterated in an unspecified order; we enumerate keys in
  first-occurrence order and use a stable sort where Go uses
  `sort.Slice`.  Every theorem below is insensitive to that choice
  (inputs are arranged to have a unique relevant candidate or a unique
  maximum).
* The globals `NormalizeNames` and `PhaseMode` keep their defaults
  (`false`, `"auto"`), which is the configuration every claim refers to.
-/

abbrev Str := List Char

/-- Shorthand to write a kernel-name literal. -/
def strL (s : String) : Str := s.toList

/-- `KernelEvent` (cycle_kmer.go): one retained GPU kernel completion. -/
structure KernelEvent where
  name : Str
  category : Str
  phase : Str
  timestamp : ℚ
  duration : ℚ
  pid : Int
  tid : Int
deriving Repr, DecidableEq

/-- Build a kernel event the way the trace reader retains them
(`cat == "kernel"`, `ph == "X"`). -/
def mkEv (n : String) (d : ℚ) : KernelEvent :=
  ⟨n.toList, "kernel".toList, "X".toList, 0, d, 0, 0⟩

/-- `CycleInfo` (cycle.go): one detected repeating pattern. -/
structure CycleInfo where
  startIndex : ℕ
  cycleLength : ℕ
  numCycles : ℕ
  cycleIndices : List ℕ
deriving Repr, DecidableEq

/-! ### FNV-1a hashing (`hashString`, cycle.go) -/

def fnvOffset : ℕ := 14695981039346656037
def fnvPrime : ℕ := 1099511628211

/-- UTF-8 encoding of one character (Go strings are UTF-8 byte slices). -/
def utf8Bytes (c : Char) : List ℕ :=
  let n := c.toNat
  if n < 0x80 then [n]
  else if n < 0x800 then
    [0xC0 + n / 0x40, 0x80 + n % 0x40]
  else if n < 0x10000 then
    [0xE0 + n / 0x1000, 0x80 + n / 0x40 % 0x40, 0x80 + n % 0x40]
  else
    [0xF0 + n / 0x40000, 0x80 + n / 0x1000 % 0x40, 0x80 + n / 0x40 % 0x40,
      0x80 + n % 0x40]

def strBytes (s : Str) : List ℕ := s.foldr (fun c acc => utf8Bytes c ++ acc) []

/-- 64-bit FNV-1a hash of a kernel name (`hashString`). -/
def hashString (s : Str) : ℕ :=
  (strBytes s).foldl (fun h b => ((h ^^^ b) * fnvPrime) % 2 ^ 64) fnvOffset

/-! ### Signature normalizer (`getKernelSignature`, cycle.go) -/

def isDigitChar (c : Char) : Bool := 48 ≤ c.toNat && c.toNat ≤ 57

/-- First index of substring `p` in `s` (`strings.Index`); `none` when
absent. -/
def firstSubIdx (p s : Str) : Option ℕ :=
  if p.isPrefixOf s then some 0
  else
    match s with
    | [] => none
    | _ :: t => (firstSubIdx p t).map (· + 1)

/-- `if idx := strings.Index(sig, pat); idx > 0 { sig = sig[:idx] }`. -/
def truncAtSub (p s : Str) : Str :=
  match firstSubIdx p s with
  | some idx => if 0 < idx then s.take idx else s
  | none => s

/-- The configuration-marker list of `getKernelSignature` (cycle.go). -/
def configPatterns : List Str :=
  ["_GROUP_K_", "_GROUP_N_", "_BLOCK_SIZE_", "_GRID_",
   "_MT", "_MI", "_SN_", "_AFC", "_LDSB", "_LPA", "_LPB",
   "_UserArgs_", "_shortname"].map String.toList

def applyConfig (s : Str) : Str :=
  configPatterns.foldl (fun acc p => truncAtSub p acc) s

/-- Viewed from the back of the string: a digit directly followed (in
reverse order) by an underscore. -/
def revHeadUD : Str → Bool
  | d :: '_' :: _ => isDigitChar d
  | _ => false

/-- Does `s` end in an underscore followed by one digit
(`sig[len-1]` digit and `sig[len-2] == '_'`)? -/
def endsUD (s : Str) : Bool := revHeadUD s.reverse

/-- The trailing-number loop of `getKernelSignature`, working on the
reversed string: strip a leading digit-underscore pair while the rest is
nonempty (i.e. while the original string is longer than 2). -/
def stripRevNum : Str → Str
  | d :: '_' :: rest =>
    if isDigitChar d && decide (0 < rest.length) then stripRevNum rest
    else d :: '_' :: rest
  | s => s

/-- The trailing-number loop of `getKernelSignature`:
`for len(sig) > 2 && digit(sig[len-1]) && sig[len-2] == '_' { sig = sig[:len(sig)-2] }`. -/
def stripTrailingNum (s : Str) : Str :=
  (stripRevNum s.reverse).reverse

/-- `strings.TrimRight(sig, "_")`. -/
def trimUnderscores (s : Str) : Str :=
  (s.reverse.dropWhile (· = '_')).reverse

/-- The pre-fallback pipeline of `getKernelSignature`. -/
def processedSig (name : Str) : Str :=
  trimUnderscores (stripTrailingNum (applyConfig (truncAtSub ['<'] name)))

/-- `getKernelSignature` (cycle.go): template truncation, configuration
marker truncation, trailing `_<digit>` stripping, trailing underscore
trimming, hash fallback for results shorter than 3 characters. -/
def getKernelSignature (name : Str) : Str :=
  let sig := processedSig name
  if sig.length < 3 then
    "other_".toList ++ (Nat.repr (hashString name % 1000)).toList
  else sig

/-! ### Cycle detection (cycle.go) -/

/-- Hash every event name once (`NormalizeNames = false`, the default). -/
def hashesOf (events : List KernelEvent) : List ℕ :=
  events.map (fun e => hashString e.name)

/-- Do the two windows `[a, a+len)` and `[b, b+len)` of `hs` agree
position-wise? (the inner loop of `tryCycleLength`). -/
def windowEq (hs : List ℕ) (a b len : ℕ) : Bool :=
  (List.range len).all (fun i => hs.get? (a + i) == hs.get? (b + i))

/-- The matching loop of `tryCycleLength` over a precomputed position
sequence: keep a position while its window stays inside the stream and
matches the reference window at `startOffset`; stop at the first mismatch
or out-of-bounds window. -/
def collectGo (hs : List ℕ) (startOffset cycleLen : ℕ) : List ℕ → List ℕ
  | [] => []
  | pos :: rest =>
    if pos + cycleLen ≤ hs.length then
      if windowEq hs startOffset pos cycleLen then
        pos :: collectGo hs startOffset cycleLen rest
      else []
    else []

/-- Cycle start positions beyond the first found by `tryCycleLength`:
`pos = startOffset + k*cycleLen` for `k = 1, 2, …`.  For `cycleLen ≥ 1`
the `k`-th position is at least `k`, so `hs.length` steps always reach the
out-of-bounds stop of the Go loop. -/
def collectReps (hs : List ℕ) (startOffset cycleLen : ℕ) : List ℕ :=
  collectGo hs startOffset cycleLen
    ((List.range' 1 hs.length).map (fun k => startOffset + k * cycleLen))

/-- One `startOffset` iteration of `tryCycleLength`.  (The `0 < cycleLen`
conjunct only rules out the degenerate length on which the Go loop would
not terminate; `tryCycleLength` never supplies it.) -/
def tryAtOffset (hs : List ℕ) (cycleLen startOffset : ℕ) : Option CycleInfo :=
  if startOffset + cycleLen ≤ hs.length ∧ 0 < cycleLen then
    if 2 ≤ 1 + (collectReps hs startOffset cycleLen).length then
      some ⟨startOffset, cycleLen, 1 + (collectReps hs startOffset cycleLen).length,
        startOffset :: collectReps hs startOffset cycleLen⟩
    else none
  else none

/-- First `some` produced by `f` over `l` (Go loops that return on the
first success). -/
def firstSome (l : List α) (f : α → Option β) : Option β :=
  match l with
  | [] => none
  | a :: t =>
    match f a with
    | some b => some b
    | none => firstSome t f

/-- `tryCycleLength` (cycle.go): try start offsets
`0 ≤ startOffset < min cycleLen (n/4)`. -/
def tryCycleLength (hs : List ℕ) (cycleLen : ℕ) : Option CycleInfo :=
  firstSome (List.range (min cycleLen (hs.length / 4)))
    (fun startOffset => tryAtOffset hs cycleLen startOffset)

/-- `DetectCycle` (cycle.go): scan cycle lengths
`minCycleLen ≤ L ≤ min maxCycleLen (n/2)` in increasing order. -/
def DetectCycle (events : List KernelEvent) (minCycleLen maxCycleLen : ℕ) :
    Except String CycleInfo :=
  if events.length < minCycleLen * 2 then
    .error "not enough events for cycle detection"
  else
    match firstSome
        (List.range' minCycleLen (min maxCycleLen (events.length / 2) + 1 - minCycleLen))
        (fun L => (tryCycleLength (hashesOf events) L).bind
          (fun info => if 2 ≤ info.numCycles then some info else none)) with
    | some info => .ok info
    | none => .error "no repeating cycle found"

/-- The accumulator loop of `findFirstRepeat`. -/
def ffrGo : List ℕ → List ℕ → ℕ → ℕ
  | [], _, _ => 0
  | h :: t, seen, i => if h ∈ seen then i else ffrGo t (h :: seen) (i + 1)

/-- `findFirstRepeat` (cycle.go): index of the first event whose hash was
seen before; `0` when no hash repeats. -/
def findFirstRepeat (events : List KernelEvent) : ℕ :=
  ffrGo (hashesOf events) [] 0

/-- `DetectCycleAuto` (cycle.go).  `max 10 (fr - 100)` matches Go's
`max(10, firstRepeat-100)`: for `fr ≤ 100` Go's negative difference and
ℕ's truncated one both lose to 10. -/
def DetectCycleAuto (events : List KernelEvent) : Except String CycleInfo :=
  if events.length < 20 then
    .error "not enough events for auto cycle detection"
  else if findFirstRepeat events = 0 then .error "no repeated kernel found"
  else
    DetectCycle events (max 10 (findFirstRepeat events - 100))
      (min (events.length / 2) (findFirstRepeat events + 1000))

/-- Stable insertion of `a` into `l` under `le`. -/
def insertBy (le : α → α → Bool) (a : α) : List α → List α
  | [] => [a]
  | b :: t => if le a b then a :: b :: t else b :: insertBy le a t

/-- Stable insertion sort; models Go's `sort.Slice` (whose order on ties
is unspecified). -/
def sortBy (le : α → α → Bool) (l : List α) : List α := l.foldr (insertBy le) []

/-- `findKernelPositions` (cycle.go), with `NormalizeNames = false`. -/
def findKernelPositions (events : List KernelEvent) (nm : Str) : List ℕ :=
  (events.enum.filter (fun p => p.2.name == nm)).map Prod.fst

/-- Occurrence count of a name (`counts` map of `findOuterCycle`). -/
def countOcc (events : List KernelEvent) (nm : Str) : ℕ :=
  (events.filter (fun e => e.name == nm)).length

/-- Distinct event names in first-occurrence order (Go iterates its
`counts` map in unspecified order; see the header note). -/
def distinctNames (events : List KernelEvent) : List Str :=
  events.foldl (fun acc e => if e.name ∈ acc then acc else acc ++ [e.name]) []

/-- Anchor candidates: `5 ≤ count ≤ n/5`, ordered by count descending
(`PhaseMode = "auto"`); stable sort models Go's `sort.Slice`. -/
def candidateNames (events : List KernelEvent) : List Str :=
  sortBy (fun a b => countOcc events b ≤ countOcc events a)
    ((distinctNames events).filter
      (fun nm => decide (5 ≤ countOcc events nm ∧
        countOcc events nm ≤ events.length / 5)))

/-- Position-wise hash matches between windows `[a, a+len)` and
`[b, b+len)` (the match counter of `verifyCycle`). -/
def matchCount (hs : List ℕ) (a b len : ℕ) : ℕ :=
  ((List.range len).filter (fun j => hs.get? (a + j) == hs.get? (b + j))).length

/-- The verification loop of `verifyCycle` over repetition numbers `is`:
break at the first window leaving the stream, otherwise keep the start
position iff at least 95% of positions hash-match
(`float64(matchCount)/float64(cycleLen) >= 0.95`). -/
def verifyLoop (hs : List ℕ) (startIdx cycleLen : ℕ) : List ℕ → List ℕ
  | [] => []
  | i :: rest =>
    if startIdx + i * cycleLen + cycleLen ≤ hs.length then
      (if 95 * cycleLen ≤ 100 * matchCount hs startIdx (startIdx + i * cycleLen) cycleLen
        then [startIdx + i * cycleLen] else [])
        ++ verifyLoop hs startIdx cycleLen rest
    else []

/-- `verifyCycle` (cycle.go). -/
def verifyCycle (events : List KernelEvent) (startIdx cycleLen expected : ℕ) :
    Option CycleInfo :=
  if 2 ≤ 1 + (verifyLoop (hashesOf events) startIdx cycleLen
      (List.range' 1 (expected - 1))).length then
    some ⟨startIdx, cycleLen,
      1 + (verifyLoop (hashesOf events) startIdx cycleLen
        (List.range' 1 (expected - 1))).length,
      startIdx :: verifyLoop (hashesOf events) startIdx cycleLen
        (List.range' 1 (expected - 1))⟩
  else none

/-- Regularity test of `findOuterCycle`: every later gap must stay within
`max 1 (cycleLen/20)` of the first gap. -/
def regularGaps (ps : List ℕ) (cycleLen : ℕ) : Bool :=
  (ps.zip ps.tail).all
    (fun g => ((g.2 : ℤ) - g.1 - cycleLen).natAbs ≤ max 1 (cycleLen / 20))

/-- The per-candidate body of `findOuterCycle`'s validation loop. -/
def processCandidate (events : List KernelEvent) (nm : Str) : Option CycleInfo :=
  match findKernelPositions events nm with
  | p0 :: p1 :: rest =>
    if (p0 :: p1 :: rest).length < 5 then none
    else if p1 - p0 < 10 then none
    else if regularGaps (p1 :: rest) (p1 - p0) ∧ 5 ≤ (p0 :: p1 :: rest).length - 1 then
      match verifyCycle events p0 (p1 - p0) (p0 :: p1 :: rest).length with
      | some info => if 5 ≤ info.numCycles then some info else none
      | none => none
    else none
  | _ => none

/-- `findOuterCycle` (cycle.go), `PhaseMode = "auto"`: validate every
candidate, then return the valid cycle with the most repetitions. -/
def findOuterCycle (events : List KernelEvent) : Option CycleInfo :=
  match sortBy (fun a b => decide (b.numCycles ≤ a.numCycles))
      ((candidateNames events).filterMap (processCandidate events)) with
  | [] => none
  | v :: _ => some v

/-- The signature-match counter of `verifySubCycleBySignature`. -/
def subMatchCount (sigs : List Str) (i cycleLen : ℕ) : ℕ :=
  ((List.range cycleLen).filter
      (fun j => decide (i + j < sigs.length ∧ i + j + cycleLen < sigs.length) &&
        (sigs.get? (i + j) == sigs.get? (i + j + cycleLen)))).length

/-- The window loop of `verifySubCycleBySignature` over a precomputed
window-start sequence: count windows with at least 80% signature match
(`float64(matchCount)/float64(cycleLen) >= 0.80`), stopping at the first
window start `i` with `¬(i + cycleLen < n)`. -/
def verifySubGo (sigs : List Str) (cycleLen : ℕ) : List ℕ → ℕ
  | [] => 0
  | i :: rest =>
    if i + cycleLen < sigs.length then
      (if 80 * cycleLen ≤ 100 * subMatchCount sigs i cycleLen then 1 else 0)
        + verifySubGo sigs cycleLen rest
    else 0

/-- `verifySubCycleBySignature` (cycle.go): at least 3 matching windows
among `i = startIdx + k*cycleLen`, `k = 0, 1, …`.  It is only invoked with
`cycleLen ≥ 5`, for which `sigs.length + 1` steps always reach the Go
loop's stop condition. -/
def verifySubCycleBySignature (sigs : List Str) (startIdx cycleLen : ℕ) : Bool :=
  3 ≤ verifySubGo sigs cycleLen
    ((List.range' 0 (sigs.length + 1)).map (fun k => startIdx + k * cycleLen))

/-- Positions of a signature inside the cycle window (`sigCounts`). -/
def sigPositions (sigs : List Str) (sig : Str) : List ℕ :=
  (sigs.enum.filter (fun p => p.2 == sig)).map Prod.fst

/-- One candidate-signature step of `findSubCycle`'s best-sub-cycle scan. -/
def subCycleStep (sigs : List Str) (best : Option (ℕ × List ℕ)) (sig : Str) :
    Option (ℕ × List ℕ) :=
  match sigPositions sigs sig with
  | p0 :: p1 :: rest =>
    if (p0 :: p1 :: rest).length < 3 then best
    else if p1 - p0 < 5 ∨ sigs.length / 2 ≤ p1 - p0 then best
    else if ((p0 :: p1 :: rest).zip (p1 :: rest)).all
        (fun g => ((g.2 : ℤ) - g.1 - ((p1 : ℤ) - p0)).natAbs ≤ max 1 ((p1 - p0) / 10)) then
      if (match best with | none => true | some b => decide (p1 - p0 < b.1)) then
        if verifySubCycleBySignature sigs p0 (p1 - p0) then
          some (p1 - p0, p0 :: p1 :: rest)
        else best
      else best
    else best
  | _ => best

/-- `findSubCycle` (cycle.go).  The Go function also receives the full
event list but never reads it; candidate signatures are scanned in
first-occurrence order (Go map order is unspecified). -/
def findSubCycle (cycleEvents : List KernelEvent) (outer : CycleInfo) :
    Option CycleInfo :=
  match ((cycleEvents.map (fun e => getKernelSignature e.name)).foldl
      (fun acc s => if s ∈ acc then acc else acc ++ [s]) []).foldl
      (subCycleStep (cycleEvents.map (fun e => getKernelSignature e.name))) none with
  | some best =>
    some
      { startIndex := outer.startIndex + best.2.headD 0
        cycleLength := best.1
        numCycles := best.2.length * outer.numCycles
        cycleIndices := outer.cycleIndices.flatMap
          (fun os => best.2.map (os + ·)) }
  | none => none

/-- `DetectCycleBySignature` (cycle.go): outer cycle by exact matching,
sub-cycle refinement when the outer length exceeds 20, otherwise the
autocorrelation fallback. -/
def DetectCycleBySignature (events : List KernelEvent) :
    Except String CycleInfo :=
  if events.length < 20 then .error "not enough events"
  else
    match findOuterCycle events with
    | some oc =>
      if 20 < oc.cycleLength then
        match findSubCycle ((events.drop oc.startIndex).take oc.cycleLength) oc with
        | some sc => .ok sc
        | none => .ok oc
      else .ok oc
    | none => DetectCycleAuto events

/-! ### Statistics aggregation (`ExtractCycle`, output.go)

The Go aggregator walks the repetitions in order and accumulates per
position; the per-position accumulation below visits exactly the same
events in the same order.  `KernelStats.StdDev` is `math.Sqrt` of the
population variance; we store the variance (`stdDevSq`) and expose the
square root as `KernelStats.stdDev`.  The transient `Durations` buffer is
cleared (`stats.Durations = nil`) before the Go function returns and is
therefore not part of the result. -/

structure KernelStats where
  name : Str
  totalDur : ℚ
  minDur : ℚ
  maxDur : ℚ
  count : ℕ
  avgDur : ℚ
  stdDevSq : ℚ
  indexInCycle : ℕ
deriving Repr, DecidableEq

noncomputable def KernelStats.stdDev (k : KernelStats) : ℝ :=
  Real.sqrt (k.stdDevSq : ℝ)

instance : Inhabited KernelStats :=
  ⟨{ name := [], totalDur := 0, minDur := 0, maxDur := 0, count := 0,
     avgDur := 0, stdDevSq := 0, indexInCycle := 0 }⟩

structure CycleResult where
  cycleLength : ℕ
  numCycles : ℕ
  totalCycleTime : ℚ
  avgCycleTime : ℚ
  kernels : List KernelStats
  kernelsByName : List (Str × ℕ)
deriving Repr, DecidableEq

/-- Durations visited at cycle position `i`, one per repetition whose
window still covers `i` (the bound check `cycleStart+i < len(events)`). -/
def positionDurs (events : List KernelEvent) (info : CycleInfo) (i : ℕ) : List ℚ :=
  info.cycleIndices.filterMap (fun s => (events.get? (s + i)).map (·.duration))

/-- Name recorded for position `i`: the event of the first repetition
that reaches the position. -/
def positionName (events : List KernelEvent) (info : CycleInfo) (i : ℕ) : Str :=
  (info.cycleIndices.filterMap (fun s => (events.get? (s + i)).map (·.name))).headD []

/-- Per-position statistics; `none` when no repetition reaches the
position (then `kernelStats` has no entry for it). -/
def mkStats (events : List KernelEvent) (info : CycleInfo) (i : ℕ) :
    Option KernelStats :=
  match positionDurs events info i with
  | [] => none
  | d :: ds =>
    let total := (d :: ds).sum
    let count := (d :: ds).length
    let avg := total / count
    some
      { name := positionName events info i
        totalDur := total
        minDur := ds.foldl min d
        maxDur := ds.foldl max d
        count := count
        avgDur := avg
        stdDevSq :=
          if 1 < count then
            ((d :: ds).map (fun x => (x - avg) * (x - avg))).sum / count
          else 0
        indexInCycle := i }

/-- Go map assignment `result.KernelsByName[stats.Name] = pos`. -/
def upsertAssoc (m : List (Str × ℕ)) (key : Str) (v : ℕ) : List (Str × ℕ) :=
  if m.any (fun p => p.1 == key) then
    m.map (fun p => if p.1 == key then (p.1, v) else p)
  else m ++ [(key, v)]

/-- `ExtractCycle` (output.go). -/
def ExtractCycle (events : List KernelEvent) (info : CycleInfo) : CycleResult :=
  let total := (info.cycleIndices.map (fun s =>
    ((List.range info.cycleLength).filterMap
      (fun i => (events.get? (s + i)).map (·.duration))).sum)).sum
  let kernels := (List.range info.cycleLength).filterMap (mkStats events info)
  { cycleLength := info.cycleLength
    numCycles := info.numCycles
    totalCycleTime := total
    avgCycleTime := total / info.numCycles
    kernels := kernels
    kernelsByName := kernels.foldl
      (fun m k => upsertAssoc m k.name k.indexInCycle) [] }

/-! ### CSV writer and reader (`WriteCSV`, output.go; `readKernelsFromCSV`,
compare.go)

Modelled at the record level: `WriteCSV` produces the list of CSV records
it hands to `encoding/csv.Writer` and `readKernelsFromCSV` consumes the
records an `encoding/csv.Reader` would hand back.  The `csv` library
round-trips every record unchanged except that a record with no fields is
written as a blank line, which the reader skips, and that the reader
rejects records whose field count differs from the first record's
(`FieldsPerRecord`). -/

/-- `%.3f` on a nonnegative scaled integer: `n` thousandths. -/
def fmtScaled (neg : Bool) (n scale : ℕ) (digits : ℕ) : String :=
  (if neg then "-" else "") ++ Nat.repr (n / scale) ++ "." ++
    (let frac := Nat.repr (n % scale)
     String.mk (List.replicate (digits - frac.length) '0') ++ frac)

/-- `fmt.Sprintf("%.3f", q)`: round to the nearest thousandth (ties away
from zero). -/
def fmt3 (q : ℚ) : String :=
  fmtScaled (q < 0) ((|q| * 1000 + 1 / 2).floor.toNat) 1000 3

/-- `fmt.Sprintf("%.4f", q)`. -/
def fmt4 (q : ℚ) : String :=
  fmtScaled (q < 0) ((|q| * 10000 + 1 / 2).floor.toNat) 10000 4

/-- Binary search step for the integer square root (structural fuel; the
search interval halves each step, so the fuel never runs out). -/
def isqrtGo (n : ℕ) : ℕ → ℕ → ℕ → ℕ
  | 0, lo, _ => lo
  | fuel + 1, lo, hi =>
    if hi ≤ lo then lo
    else
      let mid := (lo + hi + 1) / 2
      if mid * mid ≤ n then isqrtGo n fuel mid hi else isqrtGo n fuel lo (mid - 1)

/-- `⌊√n⌋` by binary search (kernel-reducible). -/
def isqrt (n : ℕ) : ℕ := isqrtGo n (n + 2) 0 n

/-- `fmt.Sprintf("%.3f", math.Sqrt q)` for `q ≥ 0`:
`⌊√q·1000 + 1/2⌋ = ⌊(2·√(10^6·num·den) + den) / (2·den)⌋`. -/
def fmtSqrt3 (q : ℚ) : String :=
  fmtScaled false
    ((isqrt (4 * (1000000 * q.num.toNat * q.den)) + q.den) / (2 * q.den)) 1000 3

/-- The records `WriteCSV` (output.go) emits: comment rows, a blank row,
the header row, one row per kernel. -/
def writeCSVRecords (r : CycleResult) : List (List String) :=
  [["# Cycle Statistics"],
   ["# Iterations", Nat.repr r.numCycles],
   ["# Kernels per cycle", Nat.repr r.cycleLength],
   ["# Avg cycle time (us)", fmt3 r.avgCycleTime],
   ["# Total time (us)", fmt3 r.totalCycleTime],
   [],
   ["index", "kernel_name", "avg_duration_us", "min_duration_us",
    "max_duration_us", "stddev_us", "count", "pct_of_cycle"]]
  ++ r.kernels.map (fun k =>
    [Nat.repr k.indexInCycle, String.mk k.name, fmt3 k.avgDur, fmt3 k.minDur,
     fmt3 k.maxDur, fmtSqrt3 k.stdDevSq, Nat.repr k.count,
     fmt4 (k.avgDur / r.avgCycleTime * 100)])

/-- The column indices `readKernelsFromCSV` extracts from the header row
(the `switch` assigns on every hit, so the last occurrence wins). -/
structure ColIdx where
  nameIdx : Option ℕ := none
  avgIdx : Option ℕ := none
  minIdx : Option ℕ := none
  maxIdx : Option ℕ := none
  stdIdx : Option ℕ := none

def findCols (header : List String) : ColIdx :=
  header.enum.foldl
    (fun c p =>
      if p.2 = "kernel_name" then { c with nameIdx := some p.1 }
      else if p.2 = "avg_duration_us" then { c with avgIdx := some p.1 }
      else if p.2 = "min_duration_us" then { c with minIdx := some p.1 }
      else if p.2 = "max_duration_us" then { c with maxIdx := some p.1 }
      else if p.2 = "stddev_us" then { c with stdIdx := some p.1 }
      else c)
    {}

/-- Decimal fraction parser for `strconv.ParseFloat` as used on the CSV
numeric cells: optional sign, digits, optional fraction. -/
def parseDigits : List Char → Option ℕ
  | [] => none
  | cs =>
    if cs.all isDigitChar then
      some (cs.foldl (fun n c => 10 * n + (c.toNat - 48)) 0)
    else none

def parseQ (s : String) : Option ℚ :=
  let cs := s.toList
  let (neg, body) :=
    match cs with
    | '-' :: t => (true, t)
    | '+' :: t => (false, t)
    | _ => (false, cs)
  let q : Option ℚ :=
    match body.splitOn '.' with
    | [intPart] => (parseDigits intPart).map (fun n => (n : ℚ))
    | [intPart, fracPart] =>
      match parseDigits intPart, parseDigits fracPart with
      | some n, some f => some ((n : ℚ) + (f : ℚ) / ((10 : ℚ) ^ fracPart.length))
      | _, _ => none
    | _ => none
  q.map (fun v => if neg then -v else v)

/-- The kernel-stat fields `readKernelsFromCSV` populates. -/
structure CsvKernel where
  name : String
  avgDur : ℚ
  minDur : ℚ := 0
  maxDur : ℚ := 0
  stdDev : ℚ := 0
deriving Repr, DecidableEq

/-- The row loop of `readKernelsFromCSV`: skip rows that are too short or
whose `avg_duration_us` fails to parse; optional columns default to 0.
`fpr` is the reader's `FieldsPerRecord` (set by the header row); a record
of a different length makes `Read` fail. -/
def readRows (ci : ColIdx) (nameIdx avgIdx fpr : ℕ) :
    List (List String) → Except String (List CsvKernel)
  | [] => .ok []
  | record :: rest =>
    if record.length ≠ fpr then .error "failed to read CSV row"
    else
      match readRows ci nameIdx avgIdx fpr rest with
      | .error e => .error e
      | .ok ks =>
        if record.length ≤ avgIdx ∨ record.length ≤ nameIdx then .ok ks
        else
          match parseQ (record.getD avgIdx "") with
          | none => .ok ks
          | some avg =>
            let getOpt : Option ℕ → ℚ := fun idx =>
              match idx with
              | some i =>
                if i < record.length then (parseQ (record.getD i "")).getD 0 else 0
              | none => 0
            .ok ({ name := record.getD nameIdx ""
                   avgDur := avg
                   minDur := getOpt ci.minIdx
                   maxDur := getOpt ci.maxIdx
                   stdDev := getOpt ci.stdIdx } :: ks)

/-- `readKernelsFromCSV` (compare.go) at the record level: the first
record the CSV reader yields (blank lines skipped) is taken as the header;
both `kernel_name` and `avg_duration_us` must be present. -/
def readKernelsFromRecords (records : List (List String)) :
    Except String (List CsvKernel) :=
  match records.filter (fun r => !r.isEmpty) with
  | [] => .error "failed to read CSV header"
  | header :: rows =>
    let ci := findCols header
    match ci.nameIdx, ci.avgIdx with
    | some nameIdx, some avgIdx => readRows ci nameIdx avgIdx header.length rows
    | _, _ => .error "CSV missing required columns (kernel_name, avg_duration_us)"

/-! ### Comparator (compare.go)

`KernelMatch` keeps Go's fields (durations in `ℚ`, standard deviations as
the copied `stdDevSq` radicand) plus two model-level provenance fields,
`eagerIdx` and `compiledIdx`: Go tracks the same information through
`eagerEntry.idx` / `matchedEagerIdx` and the compiled-loop position, but
drops it from the emitted record.  They let the at-most-once claims be
stated about the output. -/

structure KernelMatch where
  index : ℕ := 0
  eagerKernels : List Str := [[]]
  compiledKernel : Str := []
  compiledDur : ℚ := 0
  compiledMin : ℚ := 0
  compiledMax : ℚ := 0
  compiledStdDevSq : ℚ := 0
  eagerDur : ℚ := 0
  eagerMin : ℚ := 0
  eagerMax : ℚ := 0
  eagerStdDevSq : ℚ := 0
  matchType : String := ""
  signature : Str := []
  eagerIdx : Option ℕ := none
  compiledIdx : Option ℕ := none
deriving Repr, DecidableEq

/-- First unclaimed eager index satisfying `p` (Go walks the per-name /
per-signature entry lists, which hold the eager indices in increasing
order, and takes the first whose index is not in `matchedEagerIdx`). -/
def claimFirst (eager : List KernelStats) (claimed : Finset ℕ) (p : KernelStats → Bool) :
    Option ℕ :=
  ((List.range eager.length).filter (fun i =>
    decide (i ∉ claimed) && (match eager.get? i with
      | some k => p k
      | none => false))).head?

/-- The match record emitted when a compiled kernel claims eager index
`i` (`exact` or `similar`). -/
def claimedMatch (eager : List KernelStats) (idx : ℕ) (cj : ℕ × KernelStats)
    (ty : String) (i : ℕ) : KernelMatch :=
  { index := idx
    eagerKernels := [((eager.get? i).getD default).name]
    compiledKernel := cj.2.name
    compiledDur := cj.2.avgDur, compiledMin := cj.2.minDur
    compiledMax := cj.2.maxDur, compiledStdDevSq := cj.2.stdDevSq
    eagerDur := ((eager.get? i).getD default).avgDur
    eagerMin := ((eager.get? i).getD default).minDur
    eagerMax := ((eager.get? i).getD default).maxDur
    eagerStdDevSq := ((eager.get? i).getD default).stdDevSq
    matchType := ty
    signature := getKernelSignature cj.2.name
    eagerIdx := some i, compiledIdx := some cj.1 }

/-- The match record emitted when no eager kernel can be claimed. -/
def newOnlyMatch (idx : ℕ) (cj : ℕ × KernelStats) : KernelMatch :=
  { index := idx
    eagerKernels := [[]]
    compiledKernel := cj.2.name
    compiledDur := cj.2.avgDur, compiledMin := cj.2.minDur
    compiledMax := cj.2.maxDur, compiledStdDevSq := cj.2.stdDevSq
    matchType := "new_only"
    signature := getKernelSignature cj.2.name
    compiledIdx := some cj.1 }

/-- One compiled kernel of the `matchBySignature` loop: claim by name
(`exact`), else by signature (`similar`), else `new_only`. -/
def matchStep (eager : List KernelStats) (st : Finset ℕ × List KernelMatch)
    (cj : ℕ × KernelStats) : Finset ℕ × List KernelMatch :=
  match claimFirst eager st.1 (fun k => k.name == cj.2.name) with
  | some i => (insert i st.1, st.2 ++ [claimedMatch eager st.2.length cj "exact" i])
  | none =>
    match claimFirst eager st.1
        (fun k => getKernelSignature k.name == getKernelSignature cj.2.name) with
    | some i =>
      (insert i st.1, st.2 ++ [claimedMatch eager st.2.length cj "similar" i])
    | none => (st.1, st.2 ++ [newOnlyMatch st.2.length cj])

/-- The match record of the trailing `removed` pass. -/
def removedMatch (eager : List KernelStats) (idx : ℕ) (i : ℕ) : KernelMatch :=
  { index := idx
    eagerKernels := [((eager.get? i).getD default).name]
    compiledKernel := ['.']
    eagerDur := ((eager.get? i).getD default).avgDur
    eagerMin := ((eager.get? i).getD default).minDur
    eagerMax := ((eager.get? i).getD default).maxDur
    eagerStdDevSq := ((eager.get? i).getD default).stdDevSq
    matchType := "removed"
    signature := getKernelSignature ((eager.get? i).getD default).name
    eagerIdx := some i }

/-- Eager indices not yet claimed (`matchedEagerIdx` complement), in
increasing order. -/
def unclaimedIdxs (m : ℕ) (claimed : Finset ℕ) : List ℕ :=
  (List.range m).filter (fun i => decide (i ∉ claimed))

/-- Names of the unclaimed eager kernels, in index order. -/
def unclaimedNames (eager : List KernelStats) (claimed : Finset ℕ) : List Str :=
  (unclaimedIdxs eager.length claimed).filterMap
    (fun i => (eager.get? i).map (fun k => k.name))

/-- The trailing `removed` pass of `matchBySignature`. -/
def removedPass (eager : List KernelStats) (claimed : Finset ℕ) (start : ℕ) :
    List KernelMatch :=
  ((unclaimedIdxs eager.length claimed).enum).map
    (fun p => removedMatch eager (start + p.1) p.2)

/-- `matchBySignature` (compare.go): greedy signature matching. -/
def matchBySignature (eager compiled : List KernelStats) : List KernelMatch :=
  (compiled.enum.foldl (matchStep eager) (∅, [])).2 ++
    removedPass eager (compiled.enum.foldl (matchStep eager) (∅, [])).1
      (compiled.enum.foldl (matchStep eager) (∅, [])).2.length

/-- Longest common subsequence length (the DP table of `computeLCS`,
realised as fuel-indexed structural recursion; `lcsFuel` with fuel at
least `a.length + b.length` computes the table's value). -/
def lcsFuel : ℕ → List Str → List Str → ℕ
  | 0, _, _ => 0
  | _ + 1, [], _ => 0
  | _ + 1, _ :: _, [] => 0
  | fuel + 1, a :: as, b :: bs =>
    if a = b then lcsFuel fuel as bs + 1
    else max (lcsFuel fuel (a :: as) bs) (lcsFuel fuel as (b :: bs))

/-- `computeLCS` (compare.go). -/
def computeLCS (a b : List Str) : ℕ := lcsFuel (a.length + b.length) a b

/-- Entry `dp[i][j]` of the LCS table of `matchByAlignment`: the LCS of
the first `i` baseline and first `j` compiled signatures. -/
def lcsDP (a b : List Str) (i j : ℕ) : ℕ := computeLCS (a.take i) (b.take j)

/-- `rotateSlice` / `rotateKernels` (compare.go):
`result[i] = s[(i+n) % len(s)]`. -/
def rotateLeft (s : List α) (n : ℕ) : List α :=
  if s.isEmpty then s
  else s.drop (n % s.length) ++ s.take (n % s.length)

/-- The rotation search of `matchByAlignment`: best `rot ∈ [1, m)` by LCS,
first maximiser wins (`if lcs > bestLCS`). -/
def bestRotation (esigs csigs : List Str) : ℕ :=
  ((List.range' 1 (esigs.length - 1)).foldl
    (fun best rot =>
      if computeLCS (rotateLeft esigs rot) csigs > best.2 then
        (rot, computeLCS (rotateLeft esigs rot) csigs)
      else best)
    (0, computeLCS esigs csigs)).1

/-- The backtracking loop of `matchByAlignment`, producing matches in the
reverse of execution order (Go appends from `(m, n)` down to `(0, 0)` and
reverses afterwards).  The fuel is `i + j`, which decreases by at least
one per step, so the `0`-fuel branch is never taken by `matchByAlignment`. -/
def backtrackGo (eager compiled : List KernelStats) (esigs csigs : List Str) :
    ℕ → ℕ → ℕ → List KernelMatch
  | 0, _, _ => []
  | fuel + 1, i, j =>
    if i = 0 ∧ j = 0 then []
    else if 0 < i ∧ 0 < j ∧ esigs.getD (i - 1) [] = csigs.getD (j - 1) [] then
      let ek := (eager.get? (i - 1)).getD default
      let ck := (compiled.get? (j - 1)).getD default
      { eagerKernels := [ek.name]
        compiledKernel := ck.name
        compiledDur := ck.avgDur, compiledMin := ck.minDur
        compiledMax := ck.maxDur, compiledStdDevSq := ck.stdDevSq
        eagerDur := ek.avgDur, eagerMin := ek.minDur
        eagerMax := ek.maxDur, eagerStdDevSq := ek.stdDevSq
        signature := esigs.getD (i - 1) []
        matchType := if ek.name = ck.name then "exact" else "similar"
        eagerIdx := some (i - 1), compiledIdx := some (j - 1) }
        :: backtrackGo eager compiled esigs csigs fuel (i - 1) (j - 1)
    else if 0 < j ∧ (i = 0 ∨ lcsDP esigs csigs i (j - 1) ≥ lcsDP esigs csigs (i - 1) j) then
      let ck := (compiled.get? (j - 1)).getD default
      { eagerKernels := [[]]
        compiledKernel := ck.name
        compiledDur := ck.avgDur, compiledMin := ck.minDur
        compiledMax := ck.maxDur, compiledStdDevSq := ck.stdDevSq
        signature := csigs.getD (j - 1) []
        matchType := "new_only"
        compiledIdx := some (j - 1) }
        :: backtrackGo eager compiled esigs csigs fuel i (j - 1)
    else
      let ek := (eager.get? (i - 1)).getD default
      { eagerKernels := [ek.name]
        compiledKernel := ['.']
        eagerDur := ek.avgDur, eagerMin := ek.minDur
        eagerMax := ek.maxDur, eagerStdDevSq := ek.stdDevSq
        signature := esigs.getD (i - 1) []
        matchType := "removed"
        eagerIdx := some (i - 1) }
        :: backtrackGo eager compiled esigs csigs fuel (i - 1) j

/-- `matchByAlignment` (compare.go).  The applied rotation is reported on
stderr by Go; it is surfaced here as the first component. -/
def matchByAlignment (eager compiled : List KernelStats) :
    ℕ × List KernelMatch :=
  let esigs0 := eager.map (fun k => getKernelSignature k.name)
  let csigs := compiled.map (fun k => getKernelSignature k.name)
  let rot :=
    if eager.length = compiled.length ∧ 0 < eager.length then
      bestRotation esigs0 csigs
    else 0
  let esigs := if 0 < rot then rotateLeft esigs0 rot else esigs0
  let eagerR := if 0 < rot then rotateLeft eager rot else eager
  let aligned := backtrackGo eagerR compiled esigs csigs
    (eagerR.length + compiled.length) eagerR.length compiled.length
  (rot, aligned.reverse.enum.map (fun p => { p.2 with index := p.1 }))

/-! ### Concrete inputs used by the theorems -/

deriving instance DecidableEq for Except

/-- A 10-long pattern of distinct kernel names (used at `N = 20`). -/
def pat10 : List KernelEvent :=
  ["k0aa", "k1aa", "k2aa", "k3aa", "k4aa", "k5aa", "k6aa", "k7aa", "k8aa",
   "k9aa"].map (fun n => mkEv n 1)

/-- `[anc, fff × 9]`: a 10-long pattern with a unique anchor. -/
def ancPat : List KernelEvent :=
  mkEv "anc" 1 :: (List.range 9).map (fun _ => mkEv "fff" 1)

/-- Six repetitions of `ancPat` with one corrupted event (index 29), so
the third repetition fails the 95% content check while the anchor stays
perfectly regular. -/
def c5Events : List KernelEvent :=
  ancPat ++ ancPat ++ (ancPat.take 9 ++ [mkEv "zzzz" 1]) ++ ancPat ++ ancPat ++ ancPat

/-- A 21-long outer pattern: a unique anchor followed by four copies of a
5-long block whose first kernel names share the signature `alpha`. -/
def c4Outer : List KernelEvent :=
  [mkEv "xray_anchor" 1] ++
  ([mkEv "alpha_1" 1, mkEv "bravo" 1, mkEv "charlie" 1, mkEv "delta" 1, mkEv "echo" 1] ++
   [mkEv "alpha_2" 1, mkEv "bravo" 1, mkEv "charlie" 1, mkEv "delta" 1, mkEv "echo" 1] ++
   [mkEv "alpha_3" 1, mkEv "bravo" 1, mkEv "charlie" 1, mkEv "delta" 1, mkEv "echo" 1] ++
   [mkEv "alpha_4" 1, mkEv "bravo" 1, mkEv "charlie" 1, mkEv "delta" 1, mkEv "echo" 1])

/-- Six repetitions of the 21-long outer pattern (126 events): the outer
cycle is refined to a 5-long sub-cycle. -/
def c4Events : List KernelEvent :=
  c4Outer ++ c4Outer ++ c4Outer ++ c4Outer ++ c4Outer ++ c4Outer

/-- Events for the CSV round trip: two repetitions of a 2-long cycle. -/
def c1Events : List KernelEvent :=
  [mkEv "aaa" 1, mkEv "bbb" 2, mkEv "aaa" 3, mkEv "bbb" 6]

def c1Info : CycleInfo := ⟨0, 2, 2, [0, 2]⟩

/-- Kernel stats carrying only the fields the comparator reads. -/
def mkK (n : String) (d : ℚ) : KernelStats :=
  { name := n.toList, totalDur := d, minDur := d, maxDur := d, count := 1,
    avgDur := d, stdDevSq := 0, indexInCycle := 0 }

/-- Baseline `[A,B,C,D,E]` for the rotation scenario. -/
def c9Base : List KernelStats :=
  [mkK "alpha" 10, mkK "bravo" 20, mkK "charlie" 30, mkK "delta" 40, mkK "echo" 50]

/-- New cycle `[C,D,E,A,B]`: the baseline rotated by 2. -/
def c9New : List KernelStats :=
  [mkK "charlie" 31, mkK "delta" 41, mkK "echo" 51, mkK "alpha" 11, mkK "bravo" 21]

/-- Spec-side predicate: does the name still end in an underscore followed
by (one or more) digits? -/
def endsUnderscoreDigits (s : Str) : Bool :=
  let r := s.reverse
  let ds := r.takeWhile isDigitChar
  decide (0 < ds.length) && ((r.drop ds.length).head? == some '_')

/-- Underscore-digit pair concatenations: the exact shape of the suffixes
the trailing-number loop removes. -/
def isUDPairs : Str → Bool
  | [] => true
  | '_' :: d :: rest => isDigitChar d && isUDPairs rest
  | _ => false

/-- Baseline list for the permutation law: names `[alpha, bravo, charlie]`. -/
def c8Eager : List KernelStats :=
  [mkK "alpha" 10, mkK "bravo" 20, mkK "charlie" 30]

/-- New list with the same name multiset in a different order. -/
def c8Compiled : List KernelStats :=
  [mkK "charlie" 33, mkK "alpha" 11, mkK "bravo" 22]

/-- Events shorter than the second repetition window: position 1 of the
repetition starting at 2 falls beyond the stream. -/
def c10Events : List KernelEvent := [mkEv "aaa" 1, mkEv "bbb" 2, mkEv "aaa" 3]

/-- Reversed-side view of `isUDPairs`: digit-underscore pairs. -/
def isRevUDPairs : Str → Bool
  | [] => true
  | d :: '_' :: rest => isDigitChar d && isRevUDPairs rest
  | _ => false

/-- A repeat is visible to `ffrGo`: some element equals an earlier one or
one already seen. -/
def ffrTrigger (l seen : List ℕ) : Prop :=
  ∃ k, k < l.length ∧ (l.getD k 0 ∈ seen ∨ ∃ j, j < k ∧ l.getD j 0 = l.getD k 0)

/-! ### C1 — CSV round trip -/

unseal Rat.add Rat.mul Rat.inv Rat.sub in
/-- **C1** (code bug).  `WriteCSV` starts with the comment row
`# Cycle Statistics`, but `readKernelsFromCSV` treats the first record of
the file as the column header.  No `kernel_name`/`avg_duration_us` column
is found there, so re-reading a `WriteCSV` file through the
compare-from-CSV path fails outright instead of returning the kernels:
the round trip never yields any positions at all.  (Dropping the six
metadata records makes the same reader succeed, which isolates the header
handling as the defect.) -/
theorem claim_C1_csv_roundtrip :
    readKernelsFromRecords (writeCSVRecords (ExtractCycle c1Events c1Info)) =
      .error "CSV missing required columns (kernel_name, avg_duration_us)" ∧
    readKernelsFromRecords ((writeCSVRecords (ExtractCycle c1Events c1Info)).drop 6) =
      .ok
        [{ name := "aaa", avgDur := 2, minDur := 1, maxDur := 3, stdDev := 1 },
         { name := "bbb", avgDur := 4, minDur := 2, maxDur := 6, stdDev := 2 }] := by
  constructor
  · decide
  · decide

/-! ### C3 — trailing-number stripping -/

/-- **C3** (counterexample).  The claim says a trailing
underscore-plus-digits suffix such as `_12` is removed just like `_1`;
the code only strips two characters at a time and requires the character
before the final digit to be an underscore, so `alpha_12` is returned
unchanged and still ends in underscore-plus-digits. -/
theorem counterexample_C3 :
    getKernelSignature (strL "alpha_12") = strL "alpha_12" ∧
    endsUnderscoreDigits (getKernelSignature (strL "alpha_12")) = true ∧
    getKernelSignature (strL "alpha_1") = strL "alpha" := by
  refine ⟨by decide, by decide, by decide⟩

/-! ### C9 — rotation detection (align mode) -/

/-- **C9** (confirmed).  For baseline `[A,B,C,D,E]` and new cycle
`[C,D,E,A,B]` (five distinct kernel names), align mode finds and reports
rotation 2 and produces exactly five `exact` matches, in execution order,
pairing each kernel with its namesake. -/
theorem claim_C9_rotation :
    (matchByAlignment c9Base c9New).1 = 2 ∧
    (matchByAlignment c9Base c9New).2.map
        (fun m => (m.index, m.matchType, m.compiledKernel, m.eagerKernels)) =
      [(0, "exact", strL "charlie", [strL "charlie"]),
       (1, "exact", strL "delta", [strL "delta"]),
       (2, "exact", strL "echo", [strL "echo"]),
       (3, "exact", strL "alpha", [strL "alpha"]),
       (4, "exact", strL "bravo", [strL "bravo"])] := by
  refine ⟨by decide, by decide⟩

/-! ### C4 — minimum cycle length (counterexample) -/

set_option maxRecDepth 1000000 in
/-- **C4** (counterexample).  On `c4Events` the detector finds the outer
21-long cycle and then accepts a sub-cycle of length 5: sub-cycle
refinement only enforces `subCycleLen ≥ 5`, not the outer minimum of 10,
so the returned descriptor violates `cycle_length ≥ 10`. -/
theorem counterexample_C4 :
    (DetectCycleBySignature c4Events).toOption.map CycleInfo.cycleLength =
      some 5 ∧ 5 < 10 := by
  refine ⟨by decide, by decide⟩

/-! ### C5 — content verification (counterexample) -/

set_option maxRecDepth 1000000 in
/-- **C5** (counterexample).  In `c5Events` the third repetition (offset
20) fails the 95% content check (9 of 10 positions match), yet
`verifyCycle` keeps counting: the accepted descriptor has
`repetition_starts = [0, 10, 30, 40, 50]` and `num_repetitions = 5`.
Under the claim's consecutive-from-start counting, `m` would be 2 and the
candidate would be rejected; moreover the accepted gap `30 - 10 = 20`
exceeds the regularity tolerance `max 1 (10/20) = 1` around
`cycle_length = 10`. -/
theorem counterexample_C5 :
    DetectCycleBySignature c5Events = .ok ⟨0, 10, 5, [0, 10, 30, 40, 50]⟩ ∧
    ((30 - 10 : ℤ) - 10).natAbs > max 1 (10 / 20) := by
  refine ⟨by decide, by decide⟩

/-! ### Helper lemmas about the aggregator -/

theorem filterMap_eq_map_getD {α β : Type} (l : List α) (f : α → Option β) (d : β)
    (h : ∀ a ∈ l, (f a).isSome) :
    l.filterMap f = l.map (fun a => (f a).getD d) := by
  induction l with
  | nil => rfl
  | cons a t ih =>
    have ha := h a (by simp)
    obtain ⟨b, hb⟩ := Option.isSome_iff_exists.mp ha
    simp [List.filterMap_cons, hb, ih (fun x hx => h x (by simp [hx]))]

theorem length_filterMap_eq_filter {α β : Type} (l : List α) (f : α → Option β) :
    (l.filterMap f).length = (l.filter (fun a => (f a).isSome)).length := by
  induction l with
  | nil => rfl
  | cons a t ih =>
    cases hfa : f a <;>
      simp [List.filterMap_cons, List.filter_cons, hfa, ih]

theorem length_filter_lt_of_mem_not {α : Type} (l : List α) (p : α → Bool) (a : α)
    (ha : a ∈ l) (hpa : p a = false) : (l.filter p).length < l.length := by
  induction l with
  | nil => cases ha
  | cons b t ih =>
    rcases List.mem_cons.mp ha with rfl | hat
    · simp only [List.filter_cons, hpa, List.length_cons]
      exact Nat.lt_succ_of_le (List.length_filter_le _ _)
    · have ht := ih hat
      by_cases hpb : p b = true
      · simp only [List.filter_cons, if_pos hpb, List.length_cons]
        omega
      · simp only [List.filter_cons, hpb, if_neg, Bool.false_eq_true,
          not_false_iff, List.length_cons]
        omega

theorem foldl_min_le_init (d : ℚ) (ds : List ℚ) : ds.foldl min d ≤ d := by
  induction ds generalizing d with
  | nil => exact le_refl d
  | cons x xs ih =>
    calc (x :: xs).foldl min d = xs.foldl min (min d x) := rfl
    _ ≤ min d x := ih _
    _ ≤ d := min_le_left _ _

theorem foldl_min_le_mem (d x : ℚ) (ds : List ℚ) (hx : x ∈ ds) :
    ds.foldl min d ≤ x := by
  induction ds generalizing d with
  | nil => cases hx
  | cons y ys ih =>
    rcases List.mem_cons.mp hx with rfl | hys
    · calc (x :: ys).foldl min d = ys.foldl min (min d x) := rfl
      _ ≤ min d x := foldl_min_le_init _ _
      _ ≤ x := min_le_right _ _
    · exact ih _ hys

theorem init_le_foldl_max (d : ℚ) (ds : List ℚ) : d ≤ ds.foldl max d := by
  induction ds generalizing d with
  | nil => exact le_refl d
  | cons x xs ih =>
    calc d ≤ max d x := le_max_left _ _
    _ ≤ xs.foldl max (max d x) := ih _
    _ = (x :: xs).foldl max d := rfl

theorem mem_le_foldl_max (d x : ℚ) (ds : List ℚ) (hx : x ∈ ds) :
    x ≤ ds.foldl max d := by
  induction ds generalizing d with
  | nil => cases hx
  | cons y ys ih =>
    rcases List.mem_cons.mp hx with rfl | hys
    · calc x ≤ max d x := le_max_right _ _
      _ ≤ ys.foldl max (max d x) := init_le_foldl_max _ _
      _ = (x :: ys).foldl max d := rfl
    · exact ih _ hys

theorem mul_length_le_sum (m : ℚ) (l : List ℚ) (h : ∀ x ∈ l, m ≤ x) :
    m * l.length ≤ l.sum := by
  induction l with
  | nil => simp
  | cons x xs ih =>
    have h1 : m ≤ x := h x (by simp)
    have h2 : m * xs.length ≤ xs.sum := ih (fun y hy => h y (by simp [hy]))
    simp only [List.length_cons, List.sum_cons]
    push_cast
    nlinarith

theorem sum_le_mul_length (m : ℚ) (l : List ℚ) (h : ∀ x ∈ l, x ≤ m) :
    l.sum ≤ m * l.length := by
  induction l with
  | nil => simp
  | cons x xs ih =>
    have h1 : x ≤ m := h x (by simp)
    have h2 : xs.sum ≤ m * xs.length := ih (fun y hy => h y (by simp [hy]))
    simp only [List.length_cons, List.sum_cons]
    push_cast
    nlinarith

theorem sum_map_add_distrib {α : Type} (l : List α) (f g : α → ℚ) :
    (l.map (fun a => f a + g a)).sum = (l.map f).sum + (l.map g).sum := by
  induction l with
  | nil => simp
  | cons a t ih => simp [ih]; ring

theorem sum_exchange {α β : Type} (l1 : List α) (l2 : List β) (f : α → β → ℚ) :
    (l1.map (fun a => (l2.map (f a)).sum)).sum =
      (l2.map (fun b => (l1.map (fun a => f a b)).sum)).sum := by
  induction l1 with
  | nil => simp [List.map_const]
  | cons a t ih =>
    simp only [List.map_cons, List.sum_cons, ih]
    rw [← sum_map_add_distrib]

theorem sum_map_div (l : List ℚ) (c : ℚ) :
    (l.map (fun x => x / c)).sum = l.sum / c := by
  induction l with
  | nil => simp
  | cons x xs ih => simp [ih, add_div]

theorem foldlmin_le_avg (d : ℚ) (ds : List ℚ) :
    ds.foldl min d ≤ (d :: ds).sum / (d :: ds).length := by
  have hc : (0 : ℚ) < (d :: ds).length := by
    simp only [List.length_cons]
    positivity
  rw [le_div_iff₀ hc]
  exact mul_length_le_sum _ _ (fun x hx => by
    rcases List.mem_cons.mp hx with rfl | hds
    · exact foldl_min_le_init _ _
    · exact foldl_min_le_mem _ _ _ hds)

theorem avg_le_foldlmax (d : ℚ) (ds : List ℚ) :
    (d :: ds).sum / (d :: ds).length ≤ ds.foldl max d := by
  have hc : (0 : ℚ) < (d :: ds).length := by
    simp only [List.length_cons]
    positivity
  rw [div_le_iff₀ hc]
  exact sum_le_mul_length _ _ (fun x hx => by
    rcases List.mem_cons.mp hx with rfl | hds
    · exact init_le_foldl_max _ _
    · exact mem_le_foldl_max _ _ _ hds)

theorem mkStats_of_durs (events : List KernelEvent) (info : CycleInfo) (i : ℕ)
    (d : ℚ) (ds : List ℚ) (h : positionDurs events info i = d :: ds) :
    mkStats events info i = some
      { name := positionName events info i
        totalDur := (d :: ds).sum
        minDur := ds.foldl min d
        maxDur := ds.foldl max d
        count := (d :: ds).length
        avgDur := (d :: ds).sum / (d :: ds).length
        stdDevSq :=
          if 1 < (d :: ds).length then
            ((d :: ds).map (fun x =>
              (x - (d :: ds).sum / (d :: ds).length) *
                (x - (d :: ds).sum / (d :: ds).length))).sum / (d :: ds).length
          else 0
        indexInCycle := i } := by
  simp only [mkStats, h]

/-! ### C2 — aggregation invariants -/

/-- **C2** (confirmed).  For a descriptor whose repetition windows all lie
inside the event stream (the detector's invariant) and with
`numCycles = |repetition starts| > 0`, `ExtractCycle` produces one
position per `index_in_cycle`, and every position satisfies
`count = num_repetitions`, `min ≤ avg ≤ max` and `stddev ≥ 0`; moreover
`avg_cycle_time` equals the sum of the per-position averages. -/
theorem claim_C2_aggregation (events : List KernelEvent) (info : CycleInfo)
    (hlen : info.cycleIndices.length = info.numCycles)
    (hpos : 0 < info.numCycles)
    (hbound : ∀ s ∈ info.cycleIndices, s + info.cycleLength ≤ events.length) :
    (ExtractCycle events info).kernels.length = info.cycleLength ∧
    (∀ k ∈ (ExtractCycle events info).kernels,
      k.count = info.numCycles ∧ k.minDur ≤ k.avgDur ∧ k.avgDur ≤ k.maxDur ∧
        (0 : ℝ) ≤ k.stdDev) ∧
    (ExtractCycle events info).avgCycleTime =
      ((ExtractCycle events info).kernels.map KernelStats.avgDur).sum := by
  have hsome : ∀ i, i < info.cycleLength → ∀ s ∈ info.cycleIndices,
      ((events.get? (s + i)).map (fun e => e.duration)).isSome = true := by
    intro i hi s hs
    have hlt : s + i < events.length := by
      have := hbound s hs
      omega
    rw [List.get?_eq_get hlt]
    rfl
  have hdurs : ∀ i, i < info.cycleLength → positionDurs events info i =
      info.cycleIndices.map
        (fun s => ((events.get? (s + i)).map (fun e => e.duration)).getD 0) := by
    intro i hi
    exact filterMap_eq_map_getD _ _ 0 (fun s hs => hsome i hi s hs)
  have hdlen : ∀ i, i < info.cycleLength →
      (positionDurs events info i).length = info.numCycles := by
    intro i hi
    rw [hdurs i hi, List.length_map, hlen]
  have hmkSome : ∀ i ∈ List.range info.cycleLength,
      (mkStats events info i).isSome = true := by
    intro i hi
    have hi' := List.mem_range.mp hi
    rcases hne : positionDurs events info i with _ | ⟨d, ds⟩
    · exfalso
      have := hdlen i hi'
      rw [hne] at this
      simp at this
      omega
    · rw [mkStats_of_durs events info i d ds hne]
      rfl
  have hkern : (ExtractCycle events info).kernels =
      (List.range info.cycleLength).map
        (fun i => (mkStats events info i).getD default) := by
    show (List.range info.cycleLength).filterMap (mkStats events info) = _
    exact filterMap_eq_map_getD _ _ default hmkSome
  refine ⟨by rw [hkern, List.length_map, List.length_range], ?_, ?_⟩
  · intro k hk
    rw [hkern] at hk
    obtain ⟨i, hi, hki⟩ := List.mem_map.mp hk
    have hi' := List.mem_range.mp hi
    rcases hne : positionDurs events info i with _ | ⟨d, ds⟩
    · exfalso
      have := hdlen i hi'
      rw [hne] at this
      simp at this
      omega
    · rw [mkStats_of_durs events info i d ds hne] at hki
      subst hki
      refine ⟨?_, foldlmin_le_avg d ds, avg_le_foldlmax d ds, Real.sqrt_nonneg _⟩
      show (d :: ds).length = info.numCycles
      rw [← hne]
      exact hdlen i hi'
  · have htot : (ExtractCycle events info).totalCycleTime =
        (info.cycleIndices.map (fun s => ((List.range info.cycleLength).map
          (fun i => ((events.get? (s + i)).map (fun e => e.duration)).getD 0)).sum)).sum := by
      show (info.cycleIndices.map _).sum = _
      congr 1
      refine List.map_congr_left (fun s hs => ?_)
      congr 1
      exact filterMap_eq_map_getD _ _ 0
        (fun i hi => hsome i (List.mem_range.mp hi) s hs)
    have havg : (ExtractCycle events info).avgCycleTime =
        (ExtractCycle events info).totalCycleTime / (info.numCycles : ℚ) := rfl
    have hmapavg : (ExtractCycle events info).kernels.map KernelStats.avgDur =
        (List.range info.cycleLength).map (fun i =>
          (info.cycleIndices.map
            (fun s => ((events.get? (s + i)).map (fun e => e.duration)).getD 0)).sum /
          (info.numCycles : ℚ)) := by
      rw [hkern, List.map_map]
      refine List.map_congr_left (fun i hi => ?_)
      have hi' := List.mem_range.mp hi
      rcases hne : positionDurs events info i with _ | ⟨d, ds⟩
      · exfalso
        have := hdlen i hi'
        rw [hne] at this
        simp at this
        omega
      · simp only [Function.comp_apply, mkStats_of_durs events info i d ds hne,
          Option.getD_some]
        show (d :: ds).sum / ((d :: ds).length : ℚ) = _
        rw [← hne, hdurs i hi']
        congr 2
        rw [← hdurs i hi', hdlen i hi']
    rw [havg, htot, hmapavg, sum_exchange]
    have h2 := sum_map_div ((List.range info.cycleLength).map
      (fun i => (info.cycleIndices.map
        (fun s => ((events.get? (s + i)).map (fun e => e.duration)).getD 0)).sum))
      ((info.numCycles : ℚ))
    rw [List.map_map] at h2
    exact h2.symm

unseal Rat.add Rat.mul Rat.inv Rat.sub in
/-- Witness for C2: the aggregation invariants instantiated on the
concrete two-repetition extraction over `c1Events`. -/
theorem claim_C2_aggregation_witness :
    (ExtractCycle c1Events c1Info).kernels.length = c1Info.cycleLength ∧
    (∀ k ∈ (ExtractCycle c1Events c1Info).kernels,
      k.count = c1Info.numCycles ∧ k.minDur ≤ k.avgDur ∧ k.avgDur ≤ k.maxDur ∧
        (0 : ℝ) ≤ k.stdDev) ∧
    (ExtractCycle c1Events c1Info).avgCycleTime =
      ((ExtractCycle c1Events c1Info).kernels.map KernelStats.avgDur).sum :=
  claim_C2_aggregation c1Events c1Info (by decide) (by decide) (by decide)

theorem isSome_durAt (events : List KernelEvent) (n : ℕ) :
    ((events.get? n).map (fun e => e.duration)).isSome = decide (n < events.length) := by
  by_cases h : n < events.length
  · rw [List.get?_eq_get h]
    simp [h]
  · rw [List.get?_eq_none.mpr (by omega)]
    simp [h]

/-! ### C10 — aggregator totality under truncated descriptors -/

/-- **C10** (confirmed).  `ExtractCycle` only ever reads events through
the guarded lookup `cycleStart + i < len(events)`: for every produced
position, `count` equals the number of repetition starts whose window
still covers that position, and whenever some repetition start `s` has
`s + i` beyond the stream end, the count at position `i` is strictly
below `num_repetitions` — the out-of-range accesses are silently skipped
rather than failing. -/
theorem claim_C10_truncation (events : List KernelEvent) (info : CycleInfo)
    (hlen : info.cycleIndices.length = info.numCycles) :
    (∀ k ∈ (ExtractCycle events info).kernels,
      k.count = (info.cycleIndices.filter
        (fun s => decide (s + k.indexInCycle < events.length))).length) ∧
    (∀ i s, s ∈ info.cycleIndices → events.length ≤ s + i →
      ∀ k ∈ (ExtractCycle events info).kernels, k.indexInCycle = i →
        k.count < info.numCycles) := by
  have hcount : ∀ k ∈ (ExtractCycle events info).kernels,
      k.count = (info.cycleIndices.filter
        (fun s => decide (s + k.indexInCycle < events.length))).length := by
    intro k hk
    obtain ⟨i, hi, hmk⟩ := List.mem_filterMap.mp hk
    rcases hne : positionDurs events info i with _ | ⟨d, ds⟩
    · rw [mkStats, hne] at hmk
      cases hmk
    · rw [mkStats_of_durs events info i d ds hne] at hmk
      obtain rfl := Option.some_inj.mp hmk
      show (d :: ds).length = _
      rw [← hne]
      show (info.cycleIndices.filterMap _).length = _
      rw [length_filterMap_eq_filter]
      congr 1
      refine List.filter_congr (fun s _ => ?_)
      exact isSome_durAt events (s + i)
  refine ⟨hcount, fun i s hs hover k hk hki => ?_⟩
  rw [hcount k hk, hki]
  rw [← hlen]
  exact length_filter_lt_of_mem_not _ _ s hs (by simp; omega)

unseal Rat.add Rat.mul Rat.inv Rat.sub in
/-- Witness for C10: on a 3-event stream with repetition starts `[0, 2]`
and cycle length 2, the counts follow the guarded-window formula and the
truncated position's count drops below `num_repetitions`. -/
theorem claim_C10_truncation_witness :
    (∀ k ∈ (ExtractCycle c10Events c1Info).kernels,
      k.count = (c1Info.cycleIndices.filter
        (fun s => decide (s + k.indexInCycle < c10Events.length))).length) ∧
    (∀ i s, s ∈ c1Info.cycleIndices → c10Events.length ≤ s + i →
      ∀ k ∈ (ExtractCycle c10Events c1Info).kernels, k.indexInCycle = i →
        k.count < c1Info.numCycles) :=
  claim_C10_truncation c10Events c1Info (by decide)

/-! ### C3 — amended trailing-number stripping -/

theorem endsUD_rev (t : Str) : endsUD t.reverse = revHeadUD t := by
  rw [endsUD, List.reverse_reverse]

theorem isUDPairs_append_pair (q : Str) (d : Char) (hd : isDigitChar d = true)
    (hq : isUDPairs q = true) : isUDPairs (q ++ ['_', d]) = true := by
  induction q using isUDPairs.induct with
  | case1 => simp [isUDPairs, hd]
  | case2 e rest ih =>
    simp only [isUDPairs, Bool.and_eq_true] at hq
    simpa [isUDPairs, hq.1] using ih hq.2
  | case3 q h1 h2 =>
    rw [isUDPairs] at hq
    · cases hq
    · exact h1
    · exact h2

theorem isUDPairs_rev (p : Str) (hp : isRevUDPairs p = true) :
    isUDPairs p.reverse = true := by
  induction p using isRevUDPairs.induct with
  | case1 => rfl
  | case2 d rest ih =>
    simp only [isRevUDPairs, Bool.and_eq_true] at hp
    have : (d :: '_' :: rest).reverse = rest.reverse ++ ['_', d] := by simp
    rw [this]
    exact isUDPairs_append_pair _ _ hp.1 (ih hp.2)
  | case3 p h1 h2 =>
    rw [isRevUDPairs] at hp
    · cases hp
    · exact h1
    · exact h2

theorem stripRevNum_decomp (r : Str) :
    ∃ p, r = p ++ stripRevNum r ∧ isRevUDPairs p = true := by
  induction r using stripRevNum.induct with
  | case1 d rest hcond ih =>
    obtain ⟨p', hp', hpairs⟩ := ih
    refine ⟨d :: '_' :: p', ?_, ?_⟩
    · rw [stripRevNum, if_pos hcond]
      simpa using hp'
    · simp only [Bool.and_eq_true] at hcond
      simp [isRevUDPairs, hcond.1, hpairs]
  | case2 d rest hcond =>
    exact ⟨[], by rw [stripRevNum.eq_1, if_neg hcond, List.nil_append], rfl⟩
  | case3 r h1 =>
    exact ⟨[], by rw [stripRevNum.eq_2 _ h1, List.nil_append], rfl⟩

theorem stripRevNum_no_more (r : Str) (hlen : 2 < (stripRevNum r).length) :
    revHeadUD (stripRevNum r) = false := by
  induction r using stripRevNum.induct with
  | case1 d rest hcond ih =>
    rw [stripRevNum, if_pos hcond] at hlen ⊢
    exact ih hlen
  | case2 d rest hcond =>
    rw [stripRevNum, if_neg hcond] at hlen ⊢
    simp only [Bool.and_eq_true, not_and_or, Bool.not_eq_true] at hcond
    rcases hcond with hd | hr
    · simp [revHeadUD, hd]
    · exfalso
      simp only [List.length_cons] at hlen
      have h0 : ¬ 0 < rest.length := by simpa using hr
      omega
  | case3 r h1 =>
    rw [stripRevNum.eq_2 _ h1] at hlen ⊢
    exact revHeadUD.eq_2 _ h1

/-- **C3** (corrected; amended claim).  After template and
configuration-marker truncation, the trailing-number loop removes from
the end of the name a (possibly empty) sequence of two-character
underscore-digit blocks `_d` — single digits only — while the remaining
name stays longer than 2 characters; when the result is still longer
than 2 characters it no longer ends in underscore-plus-single-digit.  (A
multi-digit suffix such as `_12` never matches the loop's two-character
test, so it is kept; see `counterexample_C3`.) -/
theorem claim_C3_single_digit_strip (s : Str) :
    (∃ t, stripTrailingNum s ++ t = s ∧ isUDPairs t = true) ∧
    ((stripTrailingNum s).length ≤ 2 ∨ endsUD (stripTrailingNum s) = false) := by
  constructor
  · obtain ⟨p, hp, hpairs⟩ := stripRevNum_decomp s.reverse
    refine ⟨p.reverse, ?_, isUDPairs_rev p hpairs⟩
    have := congrArg List.reverse hp
    simp only [List.reverse_reverse, List.reverse_append] at this
    rw [stripTrailingNum]
    exact this.symm
  · by_cases hlen : 2 < (stripRevNum s.reverse).length
    · right
      rw [stripTrailingNum, endsUD_rev]
      exact stripRevNum_no_more s.reverse hlen
    · left
      rw [stripTrailingNum, List.length_reverse]
      omega

/-- Witness for C3 instantiated on `zz_1_2`, whose chained single-digit
suffixes are fully stripped. -/
theorem claim_C3_single_digit_strip_witness :
    (∃ t, stripTrailingNum (strL "zz_1_2") ++ t = strL "zz_1_2" ∧
      isUDPairs t = true) ∧
    ((stripTrailingNum (strL "zz_1_2")).length ≤ 2 ∨
      endsUD (stripTrailingNum (strL "zz_1_2")) = false) :=
  claim_C3_single_digit_strip (strL "zz_1_2")

/-! ### C7 — acceptance at the N = 20 boundary -/

theorem ffrGo_bounds (l seen : List ℕ) (i : ℕ) :
    ffrGo l seen i = 0 ∨ (i ≤ ffrGo l seen i ∧ ffrGo l seen i < i + l.length) := by
  induction l generalizing seen i with
  | nil => exact Or.inl rfl
  | cons h t ih =>
    by_cases hmem : h ∈ seen
    · right
      rw [ffrGo, if_pos hmem]
      simp only [List.length_cons]
      omega
    · rw [ffrGo, if_neg hmem]
      rcases ih (h :: seen) (i + 1) with h0 | ⟨hlo, hhi⟩
      · exact Or.inl h0
      · right
        simp only [List.length_cons]
        omega

theorem ffrTrigger_step (h : ℕ) (t seen : List ℕ) (hmem : h ∉ seen)
    (htr : ffrTrigger (h :: t) seen) : ffrTrigger t (h :: seen) := by
  obtain ⟨k, hk, hcase⟩ := htr
  match k, hk with
  | 0, _ =>
    rcases hcase with hin | ⟨j, hj, _⟩
    · exact absurd hin hmem
    · omega
  | k' + 1, hk =>
    refine ⟨k', by simpa using hk, ?_⟩
    rcases hcase with hin | ⟨j, hj, hje⟩
    · refine Or.inl ?_
      simp only [List.getD_cons_succ] at hin
      exact List.mem_cons_of_mem h hin
    · match j, hj with
      | 0, _ =>
        left
        simp only [List.getD_cons_zero] at hje
        simp only [List.getD_cons_succ] at hje
        rw [← hje]
        exact List.mem_cons_self h seen
      | j' + 1, hj =>
        right
        exact ⟨j', by omega, by simpa using hje⟩

theorem ffrGo_pos (l : List ℕ) : ∀ (seen : List ℕ) (i : ℕ), 1 ≤ i →
    ffrTrigger l seen → 1 ≤ ffrGo l seen i := by
  induction l with
  | nil =>
    intro seen i _ htr
    obtain ⟨k, hk, _⟩ := htr
    simp at hk
  | cons h t ih =>
    intro seen i hi htr
    by_cases hmem : h ∈ seen
    · rw [ffrGo, if_pos hmem]
      exact hi
    · rw [ffrGo, if_neg hmem]
      exact ih (h :: seen) (i + 1) (by omega) (ffrTrigger_step h t seen hmem htr)

theorem hashesOf_append (a b : List KernelEvent) :
    hashesOf (a ++ b) = hashesOf a ++ hashesOf b := by
  simp [hashesOf]

/-- The doubled stream's hash sequence repeats with period `hp.length`. -/
theorem window_periodic (hp : List ℕ) (i : ℕ) (hi : i < hp.length) :
    (hp ++ hp).get? i = (hp ++ hp).get? (hp.length + i) := by
  rw [List.get?_append hi, List.get?_append_right (by omega)]
  congr 1
  omega

theorem collectReps_two (hs : List ℕ) (h20 : hs.length = 20)
    (hwin : windowEq hs 0 10 10 = true) : collectReps hs 0 10 = [10] := by
  unfold collectReps
  rw [h20, show List.range' 1 20 = 1 :: 2 :: List.range' 3 18 from rfl]
  simp only [List.map_cons]
  norm_num
  rw [collectGo, if_pos (by omega), if_pos hwin, collectGo, if_neg (by omega)]

theorem tryCycleLength_20 (hs : List ℕ) (h20 : hs.length = 20)
    (hwin : windowEq hs 0 10 10 = true) :
    tryCycleLength hs 10 = some ⟨0, 10, 2, [0, 10]⟩ := by
  unfold tryCycleLength
  rw [h20, show min 10 (20 / 4) = 5 from rfl,
    show List.range 5 = [0, 1, 2, 3, 4] from rfl, firstSome]
  have h0 : tryAtOffset hs 10 0 = some ⟨0, 10, 2, [0, 10]⟩ := by
    unfold tryAtOffset
    rw [if_pos (by omega), collectReps_two hs h20 hwin]
    rfl
  rw [h0]

theorem detectCycle_20 (events : List KernelEvent) (h20 : events.length = 20)
    (hwin : windowEq (hashesOf events) 0 10 10 = true) :
    DetectCycle events 10 10 = .ok ⟨0, 10, 2, [0, 10]⟩ := by
  have hhlen : (hashesOf events).length = 20 := by
    simp [hashesOf, h20]
  unfold DetectCycle
  rw [if_neg (by omega)]
  simp only [h20]
  norm_num
  rw [firstSome, tryCycleLength_20 _ hhlen hwin]
  rfl

theorem findOuterCycle_none_20 (events : List KernelEvent)
    (h20 : events.length = 20) : findOuterCycle events = none := by
  have hcand : candidateNames events = [] := by
    unfold candidateNames
    have hfil : (distinctNames events).filter
        (fun nm => decide (5 ≤ countOcc events nm ∧
          countOcc events nm ≤ events.length / 5)) = [] := by
      refine List.filter_eq_nil.mpr (fun nm _ => ?_)
      simp only [h20, decide_eq_true_eq]
      omega
    rw [hfil]
    rfl
  unfold findOuterCycle
  rw [hcand]
  rfl

/-- **C7** (confirmed).  Any 10-long kernel-name pattern repeated exactly
twice (`N = 20`) is accepted: the anchor search has no candidate with
five occurrences, so detection falls back to `DetectCycleAuto`, which
finds the length-10, two-repetition cycle starting at 0. -/
theorem claim_C7_n20_accepted (P : List KernelEvent) (hP : P.length = 10) :
    DetectCycleBySignature (P ++ P) = .ok ⟨0, 10, 2, [0, 10]⟩ := by
  have hlen : (P ++ P).length = 20 := by simp [hP]
  have hplen : (hashesOf P).length = 10 := by simp [hashesOf, hP]
  have hsplit : hashesOf (P ++ P) = hashesOf P ++ hashesOf P := hashesOf_append P P
  have hhlen : (hashesOf (P ++ P)).length = 20 := by
    rw [hsplit]
    simp [hplen]
  have hwin : windowEq (hashesOf (P ++ P)) 0 10 10 = true := by
    unfold windowEq
    rw [List.all_eq_true]
    intro i hi
    have hi10 : i < 10 := List.mem_range.mp hi
    rw [beq_iff_eq, hsplit, Nat.zero_add]
    have := window_periodic (hashesOf P) i (by omega)
    rwa [hplen] at this
  -- the trigger: position 10 repeats position 0
  have htrig : ffrTrigger (hashesOf (P ++ P)) [] := by
    refine ⟨10, by omega, Or.inr ⟨0, by omega, ?_⟩⟩
    have h0 : (hashesOf (P ++ P)).get? 0 = (hashesOf (P ++ P)).get? 10 := by
      rw [hsplit]
      have := window_periodic (hashesOf P) 0 (by omega)
      rwa [hplen, Nat.add_zero] at this
    rw [List.getD_eq_get?, List.getD_eq_get?, h0]
  have hfr1 : 1 ≤ findFirstRepeat (P ++ P) := by
    obtain ⟨e0, P', hPe⟩ : ∃ e0 P', P = e0 :: P' := by
      cases P with
      | nil => simp at hP
      | cons a t => exact ⟨a, t, rfl⟩
    subst hPe
    unfold findFirstRepeat
    rw [show hashesOf ((e0 :: P') ++ (e0 :: P')) =
        hashString e0.name :: hashesOf (P' ++ (e0 :: P')) from rfl]
    rw [ffrGo, if_neg (List.not_mem_nil _)]
    refine ffrGo_pos _ _ _ (by omega) ?_
    refine ffrTrigger_step _ _ [] (List.not_mem_nil _) ?_
    rw [show hashString e0.name :: hashesOf (P' ++ (e0 :: P')) =
        hashesOf ((e0 :: P') ++ (e0 :: P')) from rfl]
    exact htrig
  have hfrub : findFirstRepeat (P ++ P) < 20 := by
    rcases ffrGo_bounds (hashesOf (P ++ P)) [] 0 with h0 | ⟨_, hub⟩
    · unfold findFirstRepeat
      omega
    · unfold findFirstRepeat
      rw [hhlen] at hub
      omega
  unfold DetectCycleBySignature
  rw [if_neg (by omega), findOuterCycle_none_20 _ hlen]
  unfold DetectCycleAuto
  rw [if_neg (by omega), if_neg (by omega)]
  rw [Nat.max_eq_left (by omega), hlen, show (20 : ℕ) / 2 = 10 from rfl,
    Nat.min_eq_left (by omega)]
  exact detectCycle_20 _ hlen hwin

unseal Rat.add Rat.mul Rat.inv Rat.sub in
/-- Witness for C7: the concrete 10-name pattern `pat10` doubled to 20
events is accepted with descriptor `(0, 10, 2, [0, 10])`. -/
theorem claim_C7_n20_accepted_witness :
    DetectCycleBySignature (pat10 ++ pat10) = .ok ⟨0, 10, 2, [0, 10]⟩ :=
  claim_C7_n20_accepted pat10 (by decide)

/-! ### C4 — amended minimum cycle length -/

theorem firstSome_spec {α β : Type} (l : List α) (f : α → Option β) (b : β)
    (h : firstSome l f = some b) : ∃ a ∈ l, f a = some b := by
  induction l with
  | nil => cases h
  | cons a t ih =>
    rw [firstSome] at h
    rcases hfa : f a with _ | b'
    · rw [hfa] at h
      obtain ⟨a', ha', hfa'⟩ := ih h
      exact ⟨a', by simp [ha'], hfa'⟩
    · rw [hfa] at h
      obtain rfl := Option.some_inj.mp h
      exact ⟨a, by simp, hfa⟩

theorem tryAtOffset_fields (hs : List ℕ) (cycleLen startOffset : ℕ)
    (info : CycleInfo) (h : tryAtOffset hs cycleLen startOffset = some info) :
    info.cycleLength = cycleLen := by
  unfold tryAtOffset at h
  split at h
  · split at h
    · obtain rfl := Option.some_inj.mp h
      rfl
    · cases h
  · cases h

theorem tryCycleLength_fields (hs : List ℕ) (cycleLen : ℕ) (info : CycleInfo)
    (h : tryCycleLength hs cycleLen = some info) : info.cycleLength = cycleLen := by
  obtain ⟨a, _, ha⟩ := firstSome_spec _ _ _ h
  exact tryAtOffset_fields hs cycleLen a info ha

theorem detectCycle_min (events : List KernelEvent) (minL maxL : ℕ)
    (info : CycleInfo) (h : DetectCycle events minL maxL = .ok info) :
    minL ≤ info.cycleLength := by
  unfold DetectCycle at h
  split at h
  · cases h
  · rcases hfs : firstSome (List.range' minL (min maxL (events.length / 2) + 1 - minL))
        (fun L => (tryCycleLength (hashesOf events) L).bind
          (fun i => if 2 ≤ i.numCycles then some i else none)) with _ | info'
    · rw [hfs] at h
      cases h
    · rw [hfs] at h
      have hinfo : info' = info := by injection h
      obtain ⟨L, hL, hfL⟩ := firstSome_spec _ _ _ hfs
      have hLmem := (List.mem_range'_1.mp hL).1
      rcases htc : tryCycleLength (hashesOf events) L with _ | cand
      · rw [htc] at hfL
        cases hfL
      · rw [htc] at hfL
        have hfL' : (if 2 ≤ cand.numCycles then some cand else none) = some info' := hfL
        split at hfL'
        · obtain rfl := Option.some_inj.mp hfL'
          rw [← hinfo, tryCycleLength_fields _ _ _ htc]
          exact hLmem
        · cases hfL'

theorem detectCycleAuto_min (events : List KernelEvent) (info : CycleInfo)
    (h : DetectCycleAuto events = .ok info) : 10 ≤ info.cycleLength := by
  unfold DetectCycleAuto at h
  split at h
  · cases h
  · split at h
    · cases h
    · have := detectCycle_min events _ _ info h
      have h10 : 10 ≤ max 10 (findFirstRepeat events - 100) := le_max_left _ _
      omega

theorem verifyCycle_fields (events : List KernelEvent)
    (startIdx cycleLen expected : ℕ) (info : CycleInfo)
    (h : verifyCycle events startIdx cycleLen expected = some info) :
    info.cycleLength = cycleLen ∧
    info.numCycles = info.cycleIndices.length ∧
    info.cycleIndices = startIdx ::
      verifyLoop (hashesOf events) startIdx cycleLen (List.range' 1 (expected - 1)) := by
  unfold verifyCycle at h
  split at h
  · obtain rfl := Option.some_inj.mp h
    refine ⟨rfl, by simp [Nat.add_comm], rfl⟩
  · cases h

theorem processCandidate_bounds (events : List KernelEvent) (nm : Str)
    (info : CycleInfo) (h : processCandidate events nm = some info) :
    10 ≤ info.cycleLength ∧ 5 ≤ info.numCycles := by
  unfold processCandidate at h
  split at h
  next p0 p1 rest heq =>
    split at h
    · cases h
    · split at h
      · cases h
      · split at h
        · rcases hv : verifyCycle events p0 (p1 - p0) (p0 :: p1 :: rest).length
              with _ | cand
          · rw [hv] at h
            cases h
          · rw [hv] at h
            have h' : (if 5 ≤ cand.numCycles then some cand else none) = some info := h
            split at h'
            next hge =>
              obtain rfl := Option.some_inj.mp h'
              have hf := verifyCycle_fields _ _ _ _ _ hv
              refine ⟨?_, hge⟩
              rw [hf.1]
              omega
            next => cases h'
        · cases h
  next => cases h

theorem insertBy_perm {α : Type} (le : α → α → Bool) (a : α) (l : List α) :
    (insertBy le a l).Perm (a :: l) := by
  induction l with
  | nil => exact List.Perm.refl _
  | cons b t ih =>
    rw [insertBy]
    split
    · exact List.Perm.refl _
    · exact (List.Perm.cons b ih).trans (List.Perm.swap a b t)

theorem sortBy_perm {α : Type} (le : α → α → Bool) (l : List α) :
    (sortBy le l).Perm l := by
  induction l with
  | nil => exact List.Perm.refl _
  | cons a t ih =>
    exact (insertBy_perm le a (sortBy le t)).trans (List.Perm.cons a ih)

theorem findOuterCycle_bounds (events : List KernelEvent) (info : CycleInfo)
    (h : findOuterCycle events = some info) :
    10 ≤ info.cycleLength ∧ 5 ≤ info.numCycles := by
  unfold findOuterCycle at h
  rcases hs : sortBy (fun a b => decide (b.numCycles ≤ a.numCycles))
      ((candidateNames events).filterMap (processCandidate events)) with _ | ⟨v, rest⟩
  · rw [hs] at h
    cases h
  · rw [hs] at h
    have hv : v = info := by injection h
    subst hv
    have hmem : v ∈ (candidateNames events).filterMap (processCandidate events) := by
      have : v ∈ sortBy (fun a b => decide (b.numCycles ≤ a.numCycles))
          ((candidateNames events).filterMap (processCandidate events)) := by
        rw [hs]
        simp
      exact (sortBy_perm _ _).mem_iff.mp this
    obtain ⟨nm, _, hp⟩ := List.mem_filterMap.mp hmem
    exact processCandidate_bounds events nm v hp

theorem subCycleStep_min (sigs : List Str) (best : Option (ℕ × List ℕ)) (sig : Str)
    (hbest : ∀ x, best = some x → 5 ≤ x.1) :
    ∀ x, subCycleStep sigs best sig = some x → 5 ≤ x.1 := by
  intro x hx
  unfold subCycleStep at hx
  split at hx
  next p0 p1 rest heq =>
    split at hx
    · exact hbest x hx
    · split at hx
      next hlt => exact hbest x hx
      next hnot =>
        split at hx
        · split at hx
          · split at hx
            · obtain rfl := Option.some_inj.mp hx
              simp only [not_or, not_lt] at hnot
              exact hnot.1
            · exact hbest x hx
          · exact hbest x hx
        · exact hbest x hx
  next => exact hbest x hx

theorem foldl_subCycleStep_min (sigs : List Str) (l : List Str) :
    ∀ (b : Option (ℕ × List ℕ)), (∀ x, b = some x → 5 ≤ x.1) →
      ∀ x, l.foldl (subCycleStep sigs) b = some x → 5 ≤ x.1 := by
  induction l with
  | nil => intro b hb x hx; exact hb x hx
  | cons s t ih =>
    intro b hb x hx
    exact ih _ (subCycleStep_min sigs b s hb) x hx

theorem findSubCycle_min (cycleEvents : List KernelEvent) (outer : CycleInfo)
    (info : CycleInfo) (h : findSubCycle cycleEvents outer = some info) :
    5 ≤ info.cycleLength := by
  unfold findSubCycle at h
  rcases hres : ((cycleEvents.map (fun e => getKernelSignature e.name)).foldl
      (fun acc s => if s ∈ acc then acc else acc ++ [s]) []).foldl
      (subCycleStep (cycleEvents.map (fun e => getKernelSignature e.name))) none
    with _ | best
  · rw [hres] at h
    cases h
  · rw [hres] at h
    injection h with h2
    rw [← h2]
    exact foldl_subCycleStep_min _ _ none (fun x hx => by cases hx) best hres

/-- **C4** (corrected; amended claim).  Every descriptor the detector
returns has `cycle_length ≥ 5`: the outer anchor search and the
autocorrelation fallback both enforce `cycle_length ≥ 10`, but sub-cycle
refinement only enforces the sub-cycle minimum of 5
(`subCycleLen < 5 → skip`), so a refined descriptor may be shorter than
10 (see `counterexample_C4`). -/
theorem claim_C4_min_cycle_length (events : List KernelEvent) (info : CycleInfo)
    (h : DetectCycleBySignature events = .ok info) : 5 ≤ info.cycleLength := by
  unfold DetectCycleBySignature at h
  split at h
  · cases h
  · rcases ho : findOuterCycle events with _ | oc
    · rw [ho] at h
      exact le_trans (by omega) (detectCycleAuto_min events info h)
    · rw [ho] at h
      have hoc := findOuterCycle_bounds events oc ho
      have h' : (if 20 < oc.cycleLength then
          match findSubCycle ((events.drop oc.startIndex).take oc.cycleLength) oc with
          | some sc => Except.ok sc
          | none => Except.ok oc
        else Except.ok oc) = Except.ok info := h
      split at h'
      · rcases hsub : findSubCycle ((events.drop oc.startIndex).take oc.cycleLength) oc
            with _ | sc
        · rw [hsub] at h'
          have hoi : oc = info := by injection h'
          rw [← hoi]
          omega
        · rw [hsub] at h'
          have hsi : sc = info := by injection h'
          rw [← hsi]
          exact findSubCycle_min _ _ _ hsub
      · have hoi : oc = info := by injection h'
        rw [← hoi]
        omega

set_option maxRecDepth 1000000 in
/-- Witness for C4: the descriptor the detector returns on `c4Events`
satisfies the amended lower bound (with equality: its length is 5). -/
theorem claim_C4_min_cycle_length_witness :
    5 ≤ (⟨1, 5, 24, [1, 6, 11, 16, 22, 27, 32, 37, 43, 48, 53, 58, 64, 69, 74,
      79, 85, 90, 95, 100, 106, 111, 116, 121]⟩ : CycleInfo).cycleLength :=
  claim_C4_min_cycle_length c4Events _ (by decide)

/-! ### C5 — amended verifier structure -/

theorem verifyLoop_sublist (hs : List ℕ) (s L : ℕ) (is : List ℕ) :
    (verifyLoop hs s L is).Sublist (is.map (fun i => s + i * L)) := by
  induction is with
  | nil => simp [verifyLoop]
  | cons i rest ih =>
    rw [verifyLoop]
    split
    · split
      · exact List.Sublist.cons₂ _ ih
      · rw [List.nil_append]
        exact ih.trans (List.sublist_cons_self _ _)
    · exact List.nil_sublist _

theorem cycleIndices_chain (hs : List ℕ) (startIdx L n : ℕ) :
    (startIdx :: verifyLoop hs startIdx L (List.range' 1 n)).Chain'
      (fun a b => ∃ d, 1 ≤ d ∧ b = a + d * L) := by
  obtain ⟨ks, hks_sub, hks_map⟩ :=
    List.sublist_map_iff.mp (verifyLoop_sublist hs startIdx L (List.range' 1 n))
  have hfull : startIdx :: verifyLoop hs startIdx L (List.range' 1 n) =
      (0 :: ks).map (fun k => startIdx + k * L) := by
    rw [hks_map]
    simp
  rw [hfull, List.chain'_map]
  have hpw : (0 :: ks).Pairwise (· < ·) := by
    refine List.Pairwise.cons ?_ ?_
    · intro k hk
      have hk' := hks_sub.mem hk
      have := (List.mem_range'_1.mp hk').1
      omega
    · exact (List.pairwise_lt_range' 1 n).sublist hks_sub
  refine List.Chain'.imp ?_ hpw.chain'
  intro a b hab
  refine ⟨b - a, by omega, ?_⟩
  have hmul : a * L ≤ b * L := Nat.mul_le_mul_right L (le_of_lt hab)
  rw [Nat.sub_mul]
  omega

/-- **C5** (corrected; amended claim).  `verifyCycle` counts all
repetitions passing the 95% test among the expected offsets — it does not
stop at the first failure — and `findOuterCycle` rejects a candidate iff
that total is below 5.  Consequently the gaps between consecutive
`repetition_starts` of a returned descriptor are positive multiples of
`cycle_length` (a gap exceeds `cycle_length` exactly when an intermediate
repetition failed the test; see `counterexample_C5`). -/
theorem claim_C5_verifier_structure :
    (∀ (events : List KernelEvent) (startIdx cycleLen expected : ℕ)
        (info : CycleInfo),
      verifyCycle events startIdx cycleLen expected = some info →
        info.numCycles = info.cycleIndices.length ∧
        info.cycleIndices.Chain' (fun a b => ∃ d, 1 ≤ d ∧ b = a + d * cycleLen)) ∧
    (∀ (events : List KernelEvent) (info : CycleInfo),
      findOuterCycle events = some info → 5 ≤ info.numCycles) := by
  constructor
  · intro events startIdx cycleLen expected info h
    have hf := verifyCycle_fields _ _ _ _ _ h
    refine ⟨hf.2.1, ?_⟩
    rw [hf.2.2]
    exact cycleIndices_chain _ _ _ _
  · intro events info h
    exact (findOuterCycle_bounds events info h).2

set_option maxRecDepth 1000000 in
/-- Witness for C5: the descriptor accepted on `c5Events` — it has 5
repetitions, its starts are multiples of the cycle length apart, and one
gap is two cycle lengths wide. -/
theorem claim_C5_verifier_structure_witness :
    ((⟨0, 10, 5, [0, 10, 30, 40, 50]⟩ : CycleInfo).numCycles =
        (⟨0, 10, 5, [0, 10, 30, 40, 50]⟩ : CycleInfo).cycleIndices.length ∧
      (⟨0, 10, 5, [0, 10, 30, 40, 50]⟩ : CycleInfo).cycleIndices.Chain'
        (fun a b => ∃ d, 1 ≤ d ∧ b = a + d * 10)) ∧
    5 ≤ (⟨0, 10, 5, [0, 10, 30, 40, 50]⟩ : CycleInfo).numCycles :=
  ⟨claim_C5_verifier_structure.1 c5Events 0 10 6 _ (by decide),
   claim_C5_verifier_structure.2 c5Events _ (by decide)⟩

/-! ### C8 — greedy matcher on permuted inputs -/

theorem claimFirst_some_spec (eager : List KernelStats) (claimed : Finset ℕ)
    (p : KernelStats → Bool) (i : ℕ)
    (h : claimFirst eager claimed p = some i) :
    i < eager.length ∧ i ∉ claimed ∧ ∃ k, eager.get? i = some k ∧ p k = true := by
  unfold claimFirst at h
  have hmem : i ∈ (List.range eager.length).filter (fun i =>
      decide (i ∉ claimed) && (match eager.get? i with
        | some k => p k
        | none => false)) := by
    rcases hl : (List.range eager.length).filter _ with _ | ⟨a, t⟩
    · rw [hl] at h
      cases h
    · rw [hl] at h
      have hai : a = i := by simpa using h
      rw [← hai]
      simp
  have := List.mem_filter.mp hmem
  obtain ⟨hrange, hpred⟩ := this
  simp only [Bool.and_eq_true, decide_eq_true_eq] at hpred
  refine ⟨List.mem_range.mp hrange, hpred.1, ?_⟩
  rcases hget : eager.get? i with _ | k
  · rw [hget] at hpred
    exact absurd hpred.2 (by simp)
  · rw [hget] at hpred
    exact ⟨k, rfl, hpred.2⟩

theorem exists_claimFirst_name (eager : List KernelStats) (claimed : Finset ℕ)
    (nm : Str) (h : nm ∈ unclaimedNames eager claimed) :
    ∃ i, claimFirst eager claimed (fun k => k.name == nm) = some i := by
  obtain ⟨i, hi_mem, hf⟩ := List.mem_filterMap.mp h
  have hi_filter := List.mem_filter.mp hi_mem
  rcases hget : eager.get? i with _ | k
  · rw [hget] at hf
    cases hf
  · rw [hget] at hf
    have hkname : k.name = nm := by
      simpa using hf
    unfold claimFirst
    rcases hl : (List.range eager.length).filter (fun i =>
        decide (i ∉ claimed) && (match eager.get? i with
          | some k => k.name == nm
          | none => false)) with _ | ⟨a, t⟩
    · exfalso
      have : i ∈ (List.range eager.length).filter (fun i =>
          decide (i ∉ claimed) && (match eager.get? i with
            | some k => k.name == nm
            | none => false)) := by
        refine List.mem_filter.mpr ⟨hi_filter.1, ?_⟩
        rw [hget]
        simp only [Bool.and_eq_true]
        exact ⟨hi_filter.2, by simp [hkname]⟩
      rw [hl] at this
      cases this
    · exact ⟨a, rfl⟩

theorem matchStep_exact (eager : List KernelStats) (claimed : Finset ℕ)
    (ms : List KernelMatch) (j : ℕ) (ck : KernelStats) (i : ℕ)
    (h : claimFirst eager claimed (fun k => k.name == ck.name) = some i) :
    matchStep eager (claimed, ms) (j, ck) =
      (insert i claimed, ms ++ [claimedMatch eager ms.length (j, ck) "exact" i]) := by
  simp only [matchStep, h]

theorem matchStep_similar (eager : List KernelStats) (claimed : Finset ℕ)
    (ms : List KernelMatch) (j : ℕ) (ck : KernelStats) (i : ℕ)
    (hn : claimFirst eager claimed (fun k => k.name == ck.name) = none)
    (hs : claimFirst eager claimed
      (fun k => getKernelSignature k.name == getKernelSignature ck.name) = some i) :
    matchStep eager (claimed, ms) (j, ck) =
      (insert i claimed, ms ++ [claimedMatch eager ms.length (j, ck) "similar" i]) := by
  simp only [matchStep, hn, hs]

theorem matchStep_newonly (eager : List KernelStats) (claimed : Finset ℕ)
    (ms : List KernelMatch) (j : ℕ) (ck : KernelStats)
    (hn : claimFirst eager claimed (fun k => k.name == ck.name) = none)
    (hs : claimFirst eager claimed
      (fun k => getKernelSignature k.name == getKernelSignature ck.name) = none) :
    matchStep eager (claimed, ms) (j, ck) =
      (claimed, ms ++ [newOnlyMatch ms.length (j, ck)]) := by
  simp only [matchStep, hn, hs]

theorem claimedMatch_matchType (eager : List KernelStats) (idx : ℕ)
    (cj : ℕ × KernelStats) (ty : String) (i : ℕ) :
    (claimedMatch eager idx cj ty i).matchType = ty := rfl

theorem claimedMatch_eagerIdx (eager : List KernelStats) (idx : ℕ)
    (cj : ℕ × KernelStats) (ty : String) (i : ℕ) :
    (claimedMatch eager idx cj ty i).eagerIdx = some i := rfl

theorem claimedMatch_compiledIdx (eager : List KernelStats) (idx : ℕ)
    (cj : ℕ × KernelStats) (ty : String) (i : ℕ) :
    (claimedMatch eager idx cj ty i).compiledIdx = some cj.1 := rfl

theorem unclaimedIdxs_nodup (m : ℕ) (claimed : Finset ℕ) :
    (unclaimedIdxs m claimed).Nodup :=
  List.Nodup.filter _ (List.nodup_range m)

theorem mem_unclaimedIdxs (m : ℕ) (claimed : Finset ℕ) (i : ℕ) :
    i ∈ unclaimedIdxs m claimed ↔ i < m ∧ i ∉ claimed := by
  simp [unclaimedIdxs, List.mem_filter, List.mem_range]

theorem unclaimedIdxs_insert (m : ℕ) (claimed : Finset ℕ) (i : ℕ)
    (hi : i < m) (hnc : i ∉ claimed) :
    unclaimedIdxs m (insert i claimed) = (unclaimedIdxs m claimed).erase i := by
  rw [List.Nodup.erase_eq_filter (unclaimedIdxs_nodup m claimed)]
  unfold unclaimedIdxs
  rw [List.filter_filter]
  apply List.filter_congr
  intro j _
  by_cases h1 : j = i <;> by_cases h2 : j ∈ claimed <;>
    simp [h1, h2, Finset.mem_insert]

theorem unclaimedNames_cons_insert (eager : List KernelStats) (claimed : Finset ℕ)
    (i : ℕ) (k : KernelStats) (hi : i < eager.length) (hnc : i ∉ claimed)
    (hget : eager.get? i = some k) :
    (unclaimedNames eager claimed).Perm
      (k.name :: unclaimedNames eager (insert i claimed)) := by
  have hmem : i ∈ unclaimedIdxs eager.length claimed :=
    (mem_unclaimedIdxs _ _ _).mpr ⟨hi, hnc⟩
  have hperm : (unclaimedIdxs eager.length claimed).Perm
      (i :: unclaimedIdxs eager.length (insert i claimed)) := by
    rw [unclaimedIdxs_insert eager.length claimed i hi hnc]
    exact List.perm_cons_erase hmem
  have hget' : eager[i]? = some k := by
    rw [← List.get?_eq_getElem?]
    exact hget
  have h := hperm.filterMap (fun j => (eager.get? j).map (fun k => k.name))
  unfold unclaimedNames
  simpa [List.filterMap_cons, hget'] using h

theorem filterMap_range_get (f : KernelStats → Str) (l : List KernelStats) :
    (List.range l.length).filterMap (fun i => (l.get? i).map f) = l.map f := by
  induction l with
  | nil => rfl
  | cons x xs ih =>
    have hstep : (List.range (x :: xs).length).filterMap
        (fun i => ((x :: xs).get? i).map f)
        = f x :: ((List.range xs.length).map Nat.succ).filterMap
            (fun i => ((x :: xs).get? i).map f) := by
      rw [show (x :: xs).length = xs.length + 1 from rfl, List.range_succ_eq_map]
      rfl
    rw [hstep, List.filterMap_map]
    have h2 : ((fun i => ((x :: xs).get? i).map f) ∘ Nat.succ)
        = (fun i => (xs.get? i).map f) := rfl
    rw [h2, ih]
    rfl

theorem unclaimedNames_empty (eager : List KernelStats) :
    unclaimedNames eager ∅ = eager.map (fun k => k.name) := by
  unfold unclaimedNames unclaimedIdxs
  rw [List.filter_eq_self.mpr (by intro a _; simp)]
  exact filterMap_range_get _ eager

theorem unclaimedIdxs_nil_of_names (eager : List KernelStats) (claimed : Finset ℕ)
    (h : unclaimedNames eager claimed = []) :
    unclaimedIdxs eager.length claimed = [] := by
  rcases hl : unclaimedIdxs eager.length claimed with _ | ⟨i, t⟩
  · rfl
  · exfalso
    have hi : i ∈ unclaimedIdxs eager.length claimed := by
      rw [hl]; exact List.mem_cons_self i t
    have hlt : i < eager.length := ((mem_unclaimedIdxs _ _ _).mp hi).1
    obtain ⟨k, hget⟩ : ∃ k, eager.get? i = some k := by
      rcases hg : eager.get? i with _ | k
      · exact absurd (List.get?_eq_none.mp hg) (by omega)
      · exact ⟨k, rfl⟩
    have : k.name ∈ unclaimedNames eager claimed := by
      unfold unclaimedNames
      exact List.mem_filterMap.mpr ⟨i, hi, by rw [hget]; rfl⟩
    rw [h] at this
    cases this

theorem fold_exact (eager : List KernelStats) (cs : List (ℕ × KernelStats)) :
    ∀ (claimed : Finset ℕ) (ms : List KernelMatch),
      (unclaimedNames eager claimed).Perm (cs.map (fun p => p.2.name)) →
      (ms.filterMap KernelMatch.eagerIdx).Nodup →
      (∀ i ∈ ms.filterMap KernelMatch.eagerIdx, i ∈ claimed) →
      (ms.filterMap KernelMatch.compiledIdx).Nodup →
      (cs.map Prod.fst).Nodup →
      (∀ j ∈ ms.filterMap KernelMatch.compiledIdx, j ∉ cs.map Prod.fst) →
      (∀ m ∈ ms, m.matchType = "exact") →
      (∀ m ∈ (cs.foldl (matchStep eager) (claimed, ms)).2, m.matchType = "exact") ∧
      unclaimedNames eager (cs.foldl (matchStep eager) (claimed, ms)).1 = [] ∧
      ((cs.foldl (matchStep eager) (claimed, ms)).2.filterMap
        KernelMatch.eagerIdx).Nodup ∧
      ((cs.foldl (matchStep eager) (claimed, ms)).2.filterMap
        KernelMatch.compiledIdx).Nodup := by
  induction cs with
  | nil =>
    intro claimed ms h1 h2 h3 h4 h5 h6 h7
    simp only [List.foldl_nil]
    simp only [List.map_nil] at h1
    exact ⟨h7, h1.eq_nil, h2, h4⟩
  | cons c rest ih =>
    intro claimed ms h1 h2 h3 h4 h5 h6 h7
    obtain ⟨j, ck⟩ := c
    simp only [List.map_cons] at h1 h5 h6
    have hmem : ck.name ∈ unclaimedNames eager claimed :=
      h1.mem_iff.mpr (List.mem_cons_self _ _)
    obtain ⟨i, hcf⟩ := exists_claimFirst_name eager claimed ck.name hmem
    obtain ⟨hilt, hinotc, k, hget, hpk⟩ :=
      claimFirst_some_spec eager claimed _ i hcf
    have hkname : k.name = ck.name := by simpa using hpk
    have hstep := matchStep_exact eager claimed ms j ck i hcf
    rw [List.foldl_cons, hstep]
    have hjnot : j ∉ rest.map Prod.fst := (List.nodup_cons.mp h5).1
    have hrestnd : (rest.map Prod.fst).Nodup := (List.nodup_cons.mp h5).2
    have hfm_e : (ms ++ [claimedMatch eager ms.length (j, ck) "exact" i]).filterMap
        KernelMatch.eagerIdx = ms.filterMap KernelMatch.eagerIdx ++ [i] := by
      rw [List.filterMap_append]
      simp [claimedMatch_eagerIdx]
    have hfm_c : (ms ++ [claimedMatch eager ms.length (j, ck) "exact" i]).filterMap
        KernelMatch.compiledIdx = ms.filterMap KernelMatch.compiledIdx ++ [j] := by
      rw [List.filterMap_append]
      simp [claimedMatch_compiledIdx]
    have hinotfm : i ∉ ms.filterMap KernelMatch.eagerIdx :=
      fun hmem => hinotc (h3 i hmem)
    have hjnotfm : j ∉ ms.filterMap KernelMatch.compiledIdx :=
      fun hmem => (h6 j hmem) (List.mem_cons_self _ _)
    apply ih (insert i claimed) (ms ++ [claimedMatch eager ms.length (j, ck) "exact" i])
    · have hcons := unclaimedNames_cons_insert eager claimed i k hilt hinotc hget
      have h1' := hcons.symm.trans h1
      rw [hkname] at h1'
      exact h1'.cons_inv
    · rw [hfm_e]
      exact (List.perm_append_singleton i _).nodup_iff.mpr
        (List.nodup_cons.mpr ⟨hinotfm, h2⟩)
    · rw [hfm_e]
      intro i' hi'
      rcases List.mem_append.mp hi' with hold | hnew
      · exact Finset.mem_insert_of_mem (h3 i' hold)
      · have : i' = i := by simpa using hnew
        rw [this]
        exact Finset.mem_insert_self i claimed
    · rw [hfm_c]
      exact (List.perm_append_singleton j _).nodup_iff.mpr
        (List.nodup_cons.mpr ⟨hjnotfm, h4⟩)
    · exact hrestnd
    · rw [hfm_c]
      intro j' hj'
      rcases List.mem_append.mp hj' with hold | hnew
      · intro hmem
        exact (h6 j' hold) (List.mem_cons_of_mem _ hmem)
      · have : j' = j := by simpa using hnew
        rw [this]
        exact hjnot
    · intro m hm
      rcases List.mem_append.mp hm with hold | hnew
      · exact h7 m hold
      · have : m = claimedMatch eager ms.length (j, ck) "exact" i := by simpa using hnew
        rw [this]
        rfl

theorem enum_map_name (compiled : List KernelStats) :
    compiled.enum.map (fun p => p.2.name) = compiled.map (fun k => k.name) := by
  rw [show (fun p : ℕ × KernelStats => p.2.name)
      = (fun k : KernelStats => k.name) ∘ Prod.snd from rfl,
    ← List.map_map, List.enum_map_snd]

/-- **C8** (confirmed).  When the new kernel list is a permutation of the
baseline list — the same multiset of names — `matchBySignature` emits
only `exact` matches (so zero `removed` and zero `new_only` entries), and
the baseline indices and new indices recorded in the matches are each
free of duplicates: every baseline and every new kernel takes part in at
most one match. -/
theorem claim_C8_match_permutation (eager compiled : List KernelStats)
    (hperm : (eager.map (fun k => k.name)).Perm
      (compiled.map (fun k => k.name))) :
    (∀ m ∈ matchBySignature eager compiled, m.matchType = "exact") ∧
    ((matchBySignature eager compiled).filterMap KernelMatch.eagerIdx).Nodup ∧
    ((matchBySignature eager compiled).filterMap KernelMatch.compiledIdx).Nodup := by
  have henum_fst : (compiled.enum.map Prod.fst).Nodup := by
    rw [List.enum_map_fst]
    exact List.nodup_range _
  have h1 : (unclaimedNames eager ∅).Perm
      (compiled.enum.map (fun p => p.2.name)) := by
    rw [unclaimedNames_empty, enum_map_name]
    exact hperm
  obtain ⟨hexact, hnames, hnde, hndc⟩ :=
    fold_exact eager compiled.enum ∅ [] h1 (by simp) (by simp) (by simp)
      henum_fst (by simp) (by simp)
  have hidxs : unclaimedIdxs eager.length
      (compiled.enum.foldl (matchStep eager) (∅, [])).1 = [] :=
    unclaimedIdxs_nil_of_names _ _ hnames
  have hrem : removedPass eager (compiled.enum.foldl (matchStep eager) (∅, [])).1
      (compiled.enum.foldl (matchStep eager) (∅, [])).2.length = [] := by
    unfold removedPass
    rw [hidxs]
    rfl
  have hmb : matchBySignature eager compiled
      = (compiled.enum.foldl (matchStep eager) (∅, [])).2 := by
    unfold matchBySignature
    rw [hrem, List.append_nil]
  rw [hmb]
  exact ⟨hexact, hnde, hndc⟩

/-- Witness for C8 on a concrete pair of permuted three-kernel lists. -/
theorem claim_C8_match_permutation_witness :
    (c8Eager.map (fun k => k.name)).Perm (c8Compiled.map (fun k => k.name)) ∧
    ((∀ m ∈ matchBySignature c8Eager c8Compiled, m.matchType = "exact") ∧
     ((matchBySignature c8Eager c8Compiled).filterMap KernelMatch.eagerIdx).Nodup ∧
     ((matchBySignature c8Eager c8Compiled).filterMap
        KernelMatch.compiledIdx).Nodup) :=
  ⟨by decide, claim_C8_match_permutation c8Eager c8Compiled (by decide)⟩

/-! ### C6 — signature idempotence -/

theorem firstSubIdx_occ (p s : Str) (i : ℕ) (h : firstSubIdx p s = some i) :
    p <+: s.drop i := by
  induction s generalizing i with
  | nil =>
    unfold firstSubIdx at h
    by_cases hp : p.isPrefixOf ([] : Str) = true
    · rw [if_pos hp] at h
      injection h with h'
      subst h'
      simpa using List.isPrefixOf_iff_prefix.mp hp
    · rw [if_neg hp] at h
      exact Option.noConfusion h
  | cons c t ih =>
    unfold firstSubIdx at h
    by_cases hp : p.isPrefixOf (c :: t) = true
    · rw [if_pos hp] at h
      injection h with h'
      subst h'
      simpa using List.isPrefixOf_iff_prefix.mp hp
    · rw [if_neg hp] at h
      have h' : (firstSubIdx p t).map (· + 1) = some i := h
      obtain ⟨i', h3, hi⟩ := Option.map_eq_some'.mp h'
      subst hi
      rw [List.drop_succ_cons]
      exact ih i' h3

theorem firstSubIdx_none (p s : Str) (h : firstSubIdx p s = none) (j : ℕ) :
    ¬ p <+: s.drop j := by
  induction s generalizing j with
  | nil =>
    unfold firstSubIdx at h
    by_cases hp : p.isPrefixOf ([] : Str) = true
    · rw [if_pos hp] at h
      exact Option.noConfusion h
    · intro hcon
      exact hp (List.isPrefixOf_iff_prefix.mpr (by simpa using hcon))
  | cons c t ih =>
    unfold firstSubIdx at h
    by_cases hp : p.isPrefixOf (c :: t) = true
    · rw [if_pos hp] at h
      exact Option.noConfusion h
    · rw [if_neg hp] at h
      have h' : (firstSubIdx p t).map (· + 1) = none := h
      have h3 : firstSubIdx p t = none := by
        rcases h4 : firstSubIdx p t with _ | i'
        · rfl
        · rw [h4] at h'
          exact Option.noConfusion h'
      rcases j with _ | j'
      · intro hcon
        exact hp (List.isPrefixOf_iff_prefix.mpr (by simpa using hcon))
      · rw [List.drop_succ_cons]
        exact ih h3 j'

theorem firstSubIdx_min (p s : Str) (i : ℕ) (h : firstSubIdx p s = some i)
    (j : ℕ) (hj : j < i) : ¬ p <+: s.drop j := by
  induction s generalizing i j with
  | nil =>
    unfold firstSubIdx at h
    by_cases hp : p.isPrefixOf ([] : Str) = true
    · rw [if_pos hp] at h
      injection h with h'
      omega
    · rw [if_neg hp] at h
      exact Option.noConfusion h
  | cons c t ih =>
    unfold firstSubIdx at h
    by_cases hp : p.isPrefixOf (c :: t) = true
    · rw [if_pos hp] at h
      injection h with h'
      omega
    · rw [if_neg hp] at h
      have h' : (firstSubIdx p t).map (· + 1) = some i := h
      obtain ⟨i', h3, hi⟩ := Option.map_eq_some'.mp h'
      rcases j with _ | j'
      · intro hcon
        exact hp (List.isPrefixOf_iff_prefix.mpr (by simpa using hcon))
      · rw [List.drop_succ_cons]
        exact ih i' h3 j' (by omega)

theorem firstSubIdx_zero_of_pref (p t : Str) (h : p <+: t) :
    firstSubIdx p t = some 0 := by
  unfold firstSubIdx
  rw [if_pos (List.isPrefixOf_iff_prefix.mpr h)]

theorem prefix_drop_transfer (t s p : Str) (j : ℕ) (hts : t <+: s)
    (h : p <+: t.drop j) : p <+: s.drop j := by
  obtain ⟨r, rfl⟩ := hts
  rw [List.drop_append_eq_append_drop]
  exact h.trans (List.prefix_append _ _)

theorem truncAtSub_eq_none (p s : Str) (h : firstSubIdx p s = none) :
    truncAtSub p s = s := by
  rw [truncAtSub, h]

theorem truncAtSub_eq_some (p s : Str) (idx : ℕ) (h : firstSubIdx p s = some idx) :
    truncAtSub p s = if 0 < idx then s.take idx else s := by
  rw [truncAtSub, h]

theorem prefix_truncAtSub (p s : Str) : truncAtSub p s <+: s := by
  rcases h : firstSubIdx p s with _ | idx
  · rw [truncAtSub_eq_none p s h]
  · rw [truncAtSub_eq_some p s idx h]
    by_cases hidx : 0 < idx
    · rw [if_pos hidx]
      exact List.take_prefix idx s
    · rw [if_neg hidx]

theorem truncAtSub_fix (p s t : Str) (hp : p ≠ [])
    (ht : t <+: truncAtSub p s) : truncAtSub p t = t := by
  have hplen : 1 ≤ p.length := by
    rcases p with _ | ⟨c, q⟩
    · exact absurd rfl hp
    · simp
  rcases h2 : firstSubIdx p t with _ | j
  · rw [truncAtSub_eq_none p t h2]
  · rcases Nat.eq_zero_or_pos j with hj0 | hjpos
    · subst hj0
      rw [truncAtSub_eq_some p t 0 h2, if_neg (by omega)]
    · exfalso
      have hocc_t : p <+: t.drop j := firstSubIdx_occ p t j h2
      have hjp : j + p.length ≤ t.length := by
        have hl := hocc_t.length_le
        rw [List.length_drop] at hl
        omega
      rcases h : firstSubIdx p s with _ | idx
      · have hts : t <+: s := by
          rw [truncAtSub_eq_none p s h] at ht
          exact ht
        exact firstSubIdx_none p s h j (prefix_drop_transfer t s p j hts hocc_t)
      · rw [truncAtSub_eq_some p s idx h] at ht
        by_cases hidx : 0 < idx
        · rw [if_pos hidx] at ht
          have hts : t <+: s := ht.trans (List.take_prefix idx s)
          have hlen : t.length ≤ idx := by
            have := ht.length_le
            simp only [List.length_take] at this
            omega
          exact firstSubIdx_min p s idx h j (by omega)
            (prefix_drop_transfer t s p j hts hocc_t)
        · rw [if_neg hidx] at ht
          have hps : p <+: s := by
            have hocc := firstSubIdx_occ p s idx h
            have h0 : idx = 0 := by omega
            rw [h0] at hocc
            simpa using hocc
          by_cases hpt : p <+: t
          · rw [firstSubIdx_zero_of_pref p t hpt] at h2
            injection h2 with hj0
            omega
          · have hlt : t.length < p.length := by
              by_contra hge
              exact hpt (List.prefix_of_prefix_length_le hps ht (by omega))
            omega

theorem prefix_foldl_truncAtSub (ps : List Str) (s : Str) :
    ps.foldl (fun acc p => truncAtSub p acc) s <+: s := by
  induction ps generalizing s with
  | nil => exact List.prefix_refl s
  | cons p rest ih =>
    rw [List.foldl_cons]
    exact (ih (truncAtSub p s)).trans (prefix_truncAtSub p s)

theorem foldl_truncAtSub_fix (ps : List Str) :
    ∀ (s t : Str), (∀ p ∈ ps, p ≠ []) →
      t <+: ps.foldl (fun acc p => truncAtSub p acc) s →
      ∀ p ∈ ps, truncAtSub p t = t := by
  induction ps with
  | nil =>
    intro s t _ _ p hp
    cases hp
  | cons q rest ih =>
    intro s t hps ht p hp
    rw [List.foldl_cons] at ht
    rcases List.mem_cons.mp hp with rfl | hmem
    · exact truncAtSub_fix p s t (hps p hp)
        (ht.trans (prefix_foldl_truncAtSub rest _))
    · exact ih (truncAtSub q s) t
        (fun p' hp' => hps p' (List.mem_cons_of_mem q hp')) ht p hmem

theorem foldl_truncAtSub_id (ps : List Str) (t : Str)
    (h : ∀ p ∈ ps, truncAtSub p t = t) :
    ps.foldl (fun acc p => truncAtSub p acc) t = t := by
  induction ps with
  | nil => rfl
  | cons q rest ih =>
    rw [List.foldl_cons, h q (List.mem_cons_self q rest)]
    exact ih (fun p hp => h p (List.mem_cons_of_mem q hp))

theorem stripRevNum_suffix (r : Str) : stripRevNum r <:+ r := by
  obtain ⟨p, hp, _⟩ := stripRevNum_decomp r
  exact ⟨p, hp.symm⟩

theorem prefix_stripTrailingNum (s : Str) : stripTrailingNum s <+: s := by
  unfold stripTrailingNum
  have h2 := List.reverse_prefix.mpr (stripRevNum_suffix s.reverse)
  rwa [List.reverse_reverse] at h2

theorem prefix_trimUnderscores (s : Str) : trimUnderscores s <+: s := by
  unfold trimUnderscores
  have h2 := List.reverse_prefix.mpr (List.dropWhile_suffix (l := s.reverse)
    (fun c => decide (c = '_')))
  rwa [List.reverse_reverse] at h2

theorem dropWhile_idem {α : Type} (p : α → Bool) (l : List α) :
    (l.dropWhile p).dropWhile p = l.dropWhile p := by
  induction l with
  | nil => rfl
  | cons a t ih =>
    by_cases ha : p a = true
    · rw [List.dropWhile_cons, if_pos ha]
      exact ih
    · rw [List.dropWhile_cons, if_neg ha, List.dropWhile_cons, if_neg ha]

theorem trimUnderscores_idem (s : Str) :
    trimUnderscores (trimUnderscores s) = trimUnderscores s := by
  unfold trimUnderscores
  rw [List.reverse_reverse, dropWhile_idem]

theorem stripRevNum_of_not_ud (r : Str) (h : revHeadUD r = false) :
    stripRevNum r = r := by
  rcases r with _ | ⟨d, _ | ⟨c, rest⟩⟩
  · rfl
  · rfl
  · by_cases hc : c = '_'
    · subst hc
      have hd : isDigitChar d = false := h
      rw [stripRevNum.eq_1, hd]
      simp
    · apply stripRevNum.eq_2
      intro d' rest' heq
      injection heq with hh ht
      injection ht with hc' _
      exact hc hc'

theorem stripTrailingNum_of_not_endsUD (s : Str) (h : endsUD s = false) :
    stripTrailingNum s = s := by
  unfold stripTrailingNum
  rw [stripRevNum_of_not_ud s.reverse h, List.reverse_reverse]

theorem processedSig_fix (name : Str)
    (hud : endsUD (processedSig name) = false) :
    processedSig (processedSig name) = processedSig name := by
  have hpre1 : processedSig name <+:
      applyConfig (truncAtSub ['<'] name) :=
    (prefix_trimUnderscores _).trans (prefix_stripTrailingNum _)
  have hpre2 : processedSig name <+: truncAtSub ['<'] name :=
    hpre1.trans (prefix_foldl_truncAtSub configPatterns _)
  have htempl : truncAtSub ['<'] (processedSig name) = processedSig name :=
    truncAtSub_fix ['<'] name (processedSig name) (by decide) hpre2
  have hconf : ∀ p ∈ configPatterns, truncAtSub p (processedSig name)
      = processedSig name :=
    foldl_truncAtSub_fix configPatterns (truncAtSub ['<'] name)
      (processedSig name) (by decide) hpre1
  have happly : applyConfig (processedSig name) = processedSig name :=
    foldl_truncAtSub_id configPatterns _ hconf
  have hstrip : stripTrailingNum (processedSig name) = processedSig name :=
    stripTrailingNum_of_not_endsUD _ hud
  have htrim : trimUnderscores (processedSig name) = processedSig name :=
    trimUnderscores_idem _
  show trimUnderscores (stripTrailingNum (applyConfig
    (truncAtSub ['<'] (processedSig name)))) = processedSig name
  rw [htempl, happly, hstrip, htrim]

unseal Rat.add Rat.mul Rat.inv Rat.sub in
/-- **C6** (corrected; amended claim).  `getKernelSignature` is not
idempotent on every non-fallback output: `strings.TrimRight` can expose
a fresh `_<digit>` tail that only the second application strips
(`"abc_1_"` normalizes to `"abc_1"`, which normalizes further to
`"abc"`).  Length of the output being at least 3 also does not isolate
the non-fallback path, since the hash fallback `other_<n>` is itself at
least 7 characters long. -/
theorem counterexample_C6 :
    getKernelSignature (strL "abc_1_") = strL "abc_1" ∧
    3 ≤ (getKernelSignature (strL "abc_1_")).length ∧
    getKernelSignature (getKernelSignature (strL "abc_1_")) ≠
      getKernelSignature (strL "abc_1_") := by
  decide

/-- **C6** (amended).  On the non-fallback path proper — the processed
signature has at least 3 characters — and when that output does not end
in an underscore-digit pair, `getKernelSignature` is idempotent: the
template stage, every configuration-marker stage, the trailing-number
loop and the underscore trim all leave the first application's output
unchanged. -/
theorem claim_C6_idempotence (name : Str)
    (h3 : 3 ≤ (processedSig name).length)
    (hud : endsUD (processedSig name) = false) :
    getKernelSignature (getKernelSignature name) = getKernelSignature name := by
  have h1 : getKernelSignature name = processedSig name := by
    have he : getKernelSignature name =
        if (processedSig name).length < 3 then
          "other_".toList ++ (Nat.repr (hashString name % 1000)).toList
        else processedSig name := rfl
    rw [he, if_neg (by omega)]
  rw [h1]
  have h2 := processedSig_fix name hud
  have he2 : getKernelSignature (processedSig name) =
      if (processedSig (processedSig name)).length < 3 then
        "other_".toList ++
          (Nat.repr (hashString (processedSig name) % 1000)).toList
      else processedSig (processedSig name) := rfl
  rw [he2, h2, if_neg (by omega)]

unseal Rat.add Rat.mul Rat.inv Rat.sub in
/-- Witness for C6 on the name `simple_kernel_name`. -/
theorem claim_C6_idempotence_witness :
    (3 ≤ (processedSig (strL "simple_kernel_name")).length ∧
     endsUD (processedSig (strL "simple_kernel_name")) = false) ∧
    getKernelSignature (getKernelSignature (strL "simple_kernel_name")) =
      getKernelSignature (strL "simple_kernel_name") :=
  ⟨⟨by decide, by decide⟩,
   claim_C6_idempotence (strL "simple_kernel_name") (by decide) (by decide)⟩
